import Mathlib

/-!
Verification of the fold-association strategies of falcon.fold
(src/falcon/fold.hpp). The operand pack of the C++ templates is modelled
as a homogeneous `List α`; the binary combining operation as
`f : α → α → α`; the generator call of the empty fold as a value
`f0 : α`. The template-instantiation recursion of the pre-C++17
implementations is modelled with an explicit fuel argument (the wrapper
passes the operand count, which always suffices for a terminating
instantiation); exhausted fuel or a missing overload is `none`, mirroring
an instantiation that never reaches a base case / fails to compile.
-/

set_option maxHeartbeats 1000000

namespace FalconFold

/-- Free binary call tree: `leaf i` is the i-th operand, `node a b` is one
invocation of the combining operation. Instantiating the fold models at
`α := Tree`, `f := Tree.node` materialises the call tree a strategy builds. -/
inductive Tree where
  | leaf : Nat → Tree
  | node : Tree → Tree → Tree
deriving DecidableEq, Repr

/-- The right-associated combination chain `f x1 (f x2 (... (f xn-1 xn)))`
of the head `x` and the remaining operands, as required by the contract of
`foldr` (spec section 4.1). -/
def chain1 (f : α → α → α) : α → List α → α
  | x, [] => x
  | x, y :: ys => f x (chain1 f y ys)

/-- Right-associated chain of a whole operand list (`none` when empty). -/
def rchain (f : α → α → α) : List α → Option α
  | [] => none
  | x :: xs => some (chain1 f x xs)

/-! ### foldr, C++17 path (fold expressions), fold.hpp lines 276-324

`(std::forward<Ts>(args), ..., detail::fold::foldfn(f))` builds, through the
overloaded comma operator, the value `f(a1, f(a2, ... f(am-1, am)))`; every
call in it goes through the stored `F&` reference. -/

/-- Value of the comma fold `(args, ..., foldfn(f)).value` (fold.hpp
lines 290-308): `none` for an empty pack, whose `FoldFn<F>` has no `value`
member. -/
def foldfnValue (f : α → α → α) : List α → Option α
  | [] => none
  | [a] => some a
  | a :: b :: rest => (foldfnValue f (b :: rest)).map (fun v => f a v)

/-- The `foldr` overload set on the C++17 path: fold.hpp lines 55-75
(0/1/2 operands) and 312-324 (3 or more operands,
`f(x, f(y, (args, ..., foldfn(f)).value))`). -/
def foldr17 (f0 : α) (f : α → α → α) : List α → Option α
  | [] => some f0
  | [x] => some x
  | [x, y] => some (f x y)
  | x :: y :: z :: rest =>
    (foldfnValue f (z :: rest)).map (fun v => f x (f y v))

/-! ### foldr, pre-C++17 path, fold.hpp lines 387-449

`foldr_impl<brigand::list<Ts...>>::impl(f, args...)` receives the leading
`sizeof...(Ts)` arguments as `e...` and the rest as `args...`. Every call
site instantiates it with `Ts... = ` the first `⌊count/2⌋` argument types of
that call: the top-level `foldr` uses `(1+sizeof...(Ts))/2` of the `n-1`
tail operands, the recursive right half `sizeof...(Us)/2` of `sizeof...(Us)`
arguments, and the recursive left half `(1+sizeof...(Ts))/2` of
`sizeof...(Ts)+1` arguments — all of the form `⌊count/2⌋`, so the split is a
function of the argument list alone. A list of length 0 or 1 would select
`foldr_impl<brigand::list<>>`, whose instantiation recurses forever
(modelled as `none`); fuel 0 is also `none`. -/
def foldrImplF (f : α → α → α) : Nat → List α → Option α
  | 0, _ => none
  | _ + 1, [] => none
  | _ + 1, [_] => none
  | _ + 1, [a, b] => some (f a b)
  | _ + 1, [a, b, c] => some (f a (f b c))
  | fuel + 1, a :: b :: c :: d :: rest =>
    (foldrImplF f fuel ((a :: b :: c :: d :: rest).drop
        ((a :: b :: c :: d :: rest).length / 2))).bind fun r =>
      foldrImplF f fuel ((a :: b :: c :: d :: rest).take
        ((a :: b :: c :: d :: rest).length / 2) ++ [r])

/-- The `foldr` overload set on the pre-C++17 path: fold.hpp lines 55-75 and
436-448 (`f(x, foldr_impl<...>::impl(f, y, args...))`). -/
def foldr14 (f0 : α) (f : α → α → α) : List α → Option α
  | [] => some f0
  | [x] => some x
  | [x, y] => some (f x y)
  | x :: y :: z :: rest =>
    (foldrImplF f (y :: z :: rest).length (y :: z :: rest)).map (fun r => f x r)

/-! ### foldl, C++17 path, fold.hpp lines 327-385 -/

/-- Splits a nonempty list (head passed separately) into its leading part
and last element; models the `make_elems_t<sizeof...(Ts)+1, ...>` selection
of all operands but the last in the C++17 `foldl_impl`. -/
def splitLast (x : α) : List α → List α × α
  | [] => ([], x)
  | y :: ys => ((splitLast y ys).1.cons x, (splitLast y ys).2)

/-- Value of the left comma fold `(foldfn(f), ..., e...).value` (fold.hpp
lines 327-354): the left-associated chain of the pack, `none` for an empty
pack. -/
def commaChainL (f : α → α → α) : List α → Option α
  | [] => none
  | e :: es => some (es.foldl f e)

/-- The `foldl` overload set on the C++17 path, rvalue-`f` overload:
fold.hpp lines 87-107 and 357-373; for 3 or more operands `foldl_impl`
computes `f((foldfn(f), ..., e...).value, y)` where `e...` is every operand
but the last and `y` the last. -/
def foldl17 (f0 : α) (f : α → α → α) : List α → Option α
  | [] => some f0
  | [x] => some x
  | [x, y] => some (f x y)
  | x :: y :: z :: rest =>
    (commaChainL f (splitLast x (y :: z :: rest)).1).map
      (fun v => f v (splitLast x (y :: z :: rest)).2)

/-! ### foldl, pre-C++17 path, fold.hpp lines 452-532

`foldl_impl<Elems>::impl(f, a, e..., args...)` takes a leading accumulator,
then `|Elems|` operands, then the rest. `k` is the `Elems` size chosen by
the caller: the top-level `foldl` passes `sizeof...(Ts)/2+1`, the recursive
left call `sizeof...(Ts)/2`, the recursive right call `sizeof...(Us)/2`.
`k = 0` selects `foldl_impl<brigand::list<>>` (the variadic specialisation
with an empty pack), whose body re-instantiates itself with an empty
argument pack and never terminates: with fuel it always ends in `none`. -/
def foldlImplF (f : α → α → α) : Nat → Nat → α → List α → Option α
  | 0, _, _, _ => none
  | fuel + 1, 0, a, l =>
    (foldlImplF f fuel 0 a []).bind fun b =>
      foldlImplF f fuel (l.length / 2) b l
  | _ + 1, 1, a, l =>
    match l with
    | [b] => some (f a b)
    | [b, c] => some (f (f a b) c)
    | [b, c, d] => some (f (f (f a b) c) d)
    | _ => none
  | fuel + 1, k + 2, a, l =>
    if k + 2 ≤ l.length then
      (foldlImplF f fuel ((k + 2) / 2) a (l.take (k + 2))).bind fun b =>
        foldlImplF f fuel ((l.length - (k + 2)) / 2) b (l.drop (k + 2))
    else none

/-- The `foldl` overload set on the pre-C++17 path: fold.hpp lines 87-107
and 516-532 (`foldl_impl<make_elems_t<sizeof...(Ts)/2+1, ...>>::impl`). -/
def foldl14 (f0 : α) (f : α → α → α) : List α → Option α
  | [] => some f0
  | [x] => some x
  | [x, y] => some (f x y)
  | x :: y :: z :: rest =>
    foldlImplF f (x :: y :: z :: rest).length ((z :: rest).length / 2 + 1)
      x (y :: z :: rest)

/-! ### foldbr / foldbl, fold.hpp lines 536-615 and 618-687

Both `foldbr_impl` and `foldbl_impl` receive `Elems = ` the first `k` of
their `count` argument types, with `k = count/2` (`foldbr`, lines 583, 589,
605) resp. `k = count/2 + count%2 = ⌈count/2⌉` (`foldbl`, lines 656, 662,
677) at every call site, so the split is again a function of the argument
list alone. `foldbr_impl<brigand::list<>>` passes a single argument through
(lines 540-548); `foldbr_impl<brigand::list<T>>` handles 2 and 3 arguments
(`f(a,b)` and `f(a, f(b,c))`, lines 550-568); `foldbl_impl<brigand::list<T>>`
handles 1 and 2 arguments (`a` and `f(a,b)`, lines 622-645 — its 3-argument
overload is unreachable because `⌈3/2⌉ = 2` selects the variadic
specialisation). -/
def foldbrImplF (f : α → α → α) : Nat → List α → Option α
  | 0, _ => none
  | _ + 1, [] => none
  | _ + 1, [a] => some a
  | _ + 1, [a, b] => some (f a b)
  | _ + 1, [a, b, c] => some (f a (f b c))
  | fuel + 1, a :: b :: c :: d :: rest =>
    (foldbrImplF f fuel ((a :: b :: c :: d :: rest).take
        ((a :: b :: c :: d :: rest).length / 2))).bind fun x =>
      (foldbrImplF f fuel ((a :: b :: c :: d :: rest).drop
        ((a :: b :: c :: d :: rest).length / 2))).map (fun y => f x y)

/-- The `foldbr` overload set: fold.hpp lines 159-179 and 598-615. -/
def foldbr (f0 : α) (f : α → α → α) : List α → Option α
  | [] => some f0
  | [x] => some x
  | [x, y] => some (f x y)
  | x :: y :: z :: rest => foldbrImplF f (x :: y :: z :: rest).length (x :: y :: z :: rest)

/-- Recursion of `foldbl_impl` (fold.hpp lines 618-669), split
`⌈count/2⌉` at every call site. -/
def foldblImplF (f : α → α → α) : Nat → List α → Option α
  | 0, _ => none
  | _ + 1, [] => none
  | _ + 1, [a] => some a
  | _ + 1, [a, b] => some (f a b)
  | fuel + 1, a :: b :: c :: rest =>
    (foldblImplF f fuel ((a :: b :: c :: rest).take
        (((a :: b :: c :: rest).length + 1) / 2))).bind fun x =>
      (foldblImplF f fuel ((a :: b :: c :: rest).drop
        (((a :: b :: c :: rest).length + 1) / 2))).map (fun y => f x y)

/-- The `foldbl` overload set: fold.hpp lines 123-143 and 671-687. -/
def foldbl (f0 : α) (f : α → α → α) : List α → Option α
  | [] => some f0
  | [x] => some x
  | [x, y] => some (f x y)
  | x :: y :: z :: rest => foldblImplF f (x :: y :: z :: rest).length (x :: y :: z :: rest)

/-! ### foldt, fold.hpp lines 690-760 -/

/-- Loop body of `count_foldt_element` (fold.hpp lines 691-699):
`n = 2; while (n * 2 < count) n *= 2;`. Structural fuel; the callers pass
`count`, far more iterations than the doubling loop can take. -/
def cfeLoopF : Nat → Nat → Nat → Nat
  | 0, n, _ => n
  | fuel + 1, n, count => if n * 2 < count then cfeLoopF fuel (n * 2) count else n

/-- `detail::fold::count_foldt_element` (fold.hpp lines 691-699):
`min(n, count)` for the loop result `n`. -/
def count_foldt_element (count : Nat) : Nat :=
  min (cfeLoopF count 2 count) count

/-- Recursion of `foldt_impl` (fold.hpp lines 701-742). Every call site
passes `Elems = ` the first `count_foldt_element(count)` argument types.
`foldt_impl<brigand::list<T>>` passes one argument through; when
`Elems` covers all arguments the direct call `f(e...)` fires (line 720),
which for a binary combining operation requires exactly two arguments. -/
def foldtImplF (f : α → α → α) : Nat → List α → Option α
  | 0, _ => none
  | _ + 1, [] => none
  | _ + 1, [a] => some a
  | _ + 1, [a, b] => some (f a b)
  | fuel + 1, a :: b :: c :: rest =>
    if count_foldt_element (a :: b :: c :: rest).length = (a :: b :: c :: rest).length then
      none
    else
      (foldtImplF f fuel ((a :: b :: c :: rest).take
          (count_foldt_element (a :: b :: c :: rest).length))).bind fun x =>
        (foldtImplF f fuel ((a :: b :: c :: rest).drop
          (count_foldt_element (a :: b :: c :: rest).length))).map (fun y => f x y)

/-- The `foldt` overload set: fold.hpp lines 195-215 and 744-760. -/
def foldt (f0 : α) (f : α → α → α) : List α → Option α
  | [] => some f0
  | [x] => some x
  | [x, y] => some (f x y)
  | x :: y :: z :: rest => foldtImplF f (x :: y :: z :: rest).length (x :: y :: z :: rest)

/-! ### foldp, fold.hpp lines 763-815

`foldp_impl<Elems, Pow>::impl(folder, f, e..., args...)` takes
`|Elems| = min(Pow, count)` leading operands as the current cluster
(the initial call passes `Elems = list<U&&, V&&>` with `Pow = 2`, the
recursive call `min(Pow*2, sizeof...(args))` with `Pow*2`); with no
remaining arguments the cluster is `folder(e...)` alone, otherwise
`f(folder(e...), <recursion>)`. The folder is modelled as an abstract
total function `g` on the cluster. -/
def foldpImplF (g : List α → α) (f : α → α → α) : Nat → Nat → List α → Option α
  | 0, _, _ => none
  | fuel + 1, pow, l =>
    if min pow l.length = l.length then some (g l)
    else
      (foldpImplF g f fuel (pow * 2) (l.drop (min pow l.length))).map
        (fun r => f (g (l.take (min pow l.length))) r)

/-- The `foldp` overload set: fold.hpp lines 227-248 and 797-815. With
three or more operands: `f(x, foldp_impl<brigand::list<U&&, V&&>, 2>::impl(
folder, f, y, z, args...))`. -/
def foldp (g : List α → α) (f0 : α) (f : α → α → α) : List α → Option α
  | [] => some f0
  | [x] => some x
  | [x, y] => some (f x y)
  | x :: y :: z :: rest =>
    (foldpImplF g f (y :: z :: rest).length 2 (y :: z :: rest)).map (fun r => f x r)

/-! ### Ownership-annotated call trees (ref-qualifier dispatch)

`CTree.call true` marks a call made through `std::forward<Fn>(f)` on an
rvalue `f` (the operation is consumed by value there); `CTree.call false`
marks a call through an lvalue reference to `f`. The annotated models
mirror exactly where fold.hpp writes `std::forward<Fn>(f)(...)` versus
`f(...)` / `foldfn(f)` on the C++17 path. -/
inductive CTree where
  | leaf : Nat → CTree
  | call : Bool → CTree → CTree → CTree
deriving DecidableEq, Repr

/-- Number of calls that consume the combining operation by value. -/
def countMoved : CTree → Nat
  | .leaf _ => 0
  | .call m a b => (if m then 1 else 0) + countMoved a + countMoved b

/-- Annotated C++17 `foldr` (fold.hpp lines 55-75, 312-324): the outermost
call is `std::forward<Fn>(f)(x, ...)`; the second-level call `f(y, ...)`
and the whole comma chain use `f` as an lvalue. `rv` records whether `f`
was supplied as an rvalue. -/
def foldrA (rv : Bool) : List CTree → Option CTree
  | [] => none
  | [x] => some x
  | [x, y] => some (CTree.call rv x y)
  | x :: y :: z :: rest =>
    (foldfnValue (CTree.call false) (z :: rest)).map
      (fun v => CTree.call rv x (CTree.call false y v))

/-- Annotated C++17 `foldl`, rvalue overload (fold.hpp lines 87-107,
340-354, 357-373): `foldl_impl::impl` computes
`std::forward<Fn>(f)((foldfn(f), ..., e...).value, y)` — only the final,
outermost call forwards `f`; the comma chain borrows it. -/
def foldlA (rv : Bool) : List CTree → Option CTree
  | [] => none
  | [x] => some x
  | [x, y] => some (CTree.call rv x y)
  | x :: y :: z :: rest =>
    (commaChainL (CTree.call false) (splitLast x (y :: z :: rest)).1).map
      (fun v => CTree.call rv v (splitLast x (y :: z :: rest)).2)

/-! ### Specification-side notions used to state the claims -/

/-- A (positive) power of two. -/
def IsPow2 (n : Nat) : Prop := ∃ k, n = 2 ^ k

/-- Geometrically growing cluster sizes (spec section 4.5): starting from
`pow`, each cluster takes `min(pow, remaining)` operands and the bound is
multiplied by `b` for the next cluster. Fuel-structural; callers pass the
remaining count `m`, which suffices whenever `pow ≥ 1`. -/
def clusterSizesB (b : Nat) : Nat → Nat → Nat → List Nat
  | 0, _, _ => []
  | fuel + 1, pow, m =>
    if m ≤ pow then [m] else pow :: clusterSizesB b fuel (pow * b) (m - pow)

/-- Binary doubling cluster sizes `min(pow, m), min(2*pow, ...), ...`. -/
def clusterSizes (pow m : Nat) : List Nat := clusterSizesB 2 m pow m

/-- Partition a list into consecutive chunks of the given sizes. -/
def chunksBySizes : List Nat → List α → List (List α)
  | [], _ => []
  | s :: ss, l => l.take s :: chunksBySizes ss (l.drop s)

/-! ### Arity-generalized variants (absent from src/falcon/fold.hpp)

The repository's test (src/test/fold_test.cpp lines 122-158) exercises
`foldr<k>`, `foldl<k>`, `foldt<k>` and `foldi<k>`, but their implementation
is not part of src/; the following definitions are modelled from the spec.
The n-ary combining operation is an abstract `F : List α → α`; rejection of
an arity `k < 2` (spec sections 4.6 and 7: "compilation must fail") is
modelled as `none`. -/

/-- Modelled from the spec: recursion of the arity-`k` right fold (spec
section 4.1, n-ary variant) — full-size clusters right-aligned, a
possibly smaller leading remainder, each call receiving up to `k`
arguments (the folded tail occupies one argument slot, as in the
reference test's `foldr<3>` expectations). -/
def foldrKgo (k : Nat) (F : List α → α) : Nat → List α → α
  | 0, l => F l
  | fuel + 1, l =>
    if l.length ≤ k ∨ k ≤ 1 then F l
    else
      let r := (l.length - k) % (k - 1)
      let m := if r = 0 then k - 1 else r
      F (l.take m ++ [foldrKgo k F fuel (l.drop m)])

/-- Modelled from the spec: `foldr<k>` (spec sections 4.1 and 4.6; the
implementation of the arity variants is not under src/). `k < 2` is
rejected (`none`). -/
def foldrK (k : Nat) (F : List α → α) (l : List α) : Option α :=
  if k < 2 then none
  else match l with
    | [] => some (F [])
    | [x] => some x
    | l => some (foldrKgo k F l.length l)

/-- Modelled from the spec: accumulator loop of the arity-`k` left fold
(spec section 4.2, n-ary variant) — after the leading cluster of `k`
operands, each call combines the accumulator with up to `k - 1` further
operands. -/
def foldlKgo (k : Nat) (F : List α → α) : Nat → α → List α → α
  | 0, a, _ => a
  | fuel + 1, a, l =>
    if l.length = 0 ∨ k ≤ 1 then a
    else foldlKgo k F fuel (F (a :: l.take (k - 1))) (l.drop (k - 1))

/-- Modelled from the spec: `foldl<k>` (spec sections 4.2 and 4.6; the
implementation of the arity variants is not under src/). `k < 2` is
rejected (`none`). -/
def foldlK (k : Nat) (F : List α → α) (l : List α) : Option α :=
  if k < 2 then none
  else match l with
    | [] => some (F [])
    | [x] => some x
    | l =>
      if l.length ≤ k then some (F l)
      else some (foldlKgo k F l.length (F (l.take k)) (l.drop k))

/-- Loop underlying `cfeK`: starting from `n = k`, multiply by `k` while
`n * k < count`. -/
def cfeKLoopF (k : Nat) : Nat → Nat → Nat → Nat
  | 0, n, _ => n
  | fuel + 1, n, count => if n * k < count then cfeKLoopF k fuel (n * k) count else n

/-- Modelled from the spec: the largest power-of-`k` cluster bound of the
arity-`k` nested fold (spec section 4.4, "power-of-k-sized clustering"),
generalizing `count_foldt_element`. -/
def cfeK (k count : Nat) : Nat :=
  min (cfeKLoopF k count k count) count

/-- Consecutive chunks of a fixed size `c` (fuel-structural). -/
def chunksOfF (c : Nat) : Nat → List α → List (List α)
  | 0, l => [l]
  | fuel + 1, l =>
    if l.length = 0 then [] else l.take c :: chunksOfF c fuel (l.drop c)

/-- Modelled from the spec: recursion of the arity-`k` nested
sub-expression fold (spec section 4.4, n-ary variant) — a single element
passes through uncombined, at most `k` elements are one direct call, and
larger counts are cut into `cfeK`-sized chunks combined in one call. -/
def foldtKgo (k : Nat) (F : List α → α) : Nat → List α → α
  | 0, l => F l
  | fuel + 1, l =>
    match l with
    | [x] => x
    | l =>
      if l.length ≤ k ∨ k ≤ 1 then F l
      else F ((chunksOfF (cfeK k l.length) l.length l).map (foldtKgo k F fuel))

/-- Modelled from the spec: `foldt<k>` (spec sections 4.4 and 4.6; the
implementation of the arity variants is not under src/). `k < 2` is
rejected (`none`). -/
def foldtK (k : Nat) (F : List α → α) (l : List α) : Option α :=
  if k < 2 then none
  else match l with
    | [] => some (F [])
    | [x] => some x
    | l => some (foldtKgo k F l.length l)

/-- Modelled from the spec: `foldi<k>` (spec sections 4.5 and 4.6; not
under src/): the outermost call receives the `k - 1` leading operands plus
the chained remainder; the remainder is cut into geometric clusters sized
`min(k, rest), min(k², rest), ...`, each reduced by the arity-`k` nested
fold, and the cluster results are chained right-to-left by binary calls
(cluster layout as observed in the reference test's `foldi` expectations).
`k < 2` is rejected (`none`). -/
def foldiK (k : Nat) (F : List α → α) (l : List α) : Option α :=
  if k < 2 then none
  else match l with
    | [] => some (F [])
    | [x] => some x
    | l =>
      if l.length ≤ k then some (F l)
      else
        some (F (l.take (k - 1) ++
          [match (chunksBySizes
              (clusterSizesB k (l.drop (k - 1)).length k (l.drop (k - 1)).length)
              (l.drop (k - 1))).map (fun c => foldtKgo k F c.length c) with
           | [] => F []
           | c :: cs => chain1 (fun a b => F [a, b]) c cs]))

/-! ### Interpretations of call trees -/

/-- Sum of the leaves of a call tree: one homomorphic interpretation of the
combination calls, used to relate runs of a strategy to its call tree. -/
def treeSum : Tree → Nat
  | .leaf n => n
  | .node a b => treeSum a + treeSum b

/-- Leaves of a call tree in left-to-right order. -/
def leavesList : Tree → List Nat
  | .leaf n => [n]
  | .node a b => leavesList a ++ leavesList b

/-! ## Chain lemmas -/

theorem chain1_append_last (f : α → α → α) (y : α) (m : List α) :
    ∀ (l : List α) (x : α),
      chain1 f x (l ++ y :: m) = chain1 f x (l ++ [chain1 f y m])
  | [], x => rfl
  | a :: l, x => by
    show f x (chain1 f a (l ++ y :: m)) = f x (chain1 f a (l ++ [chain1 f y m]))
    exact congrArg (f x) (chain1_append_last f y m l a)

theorem foldfnValue_eq_chain (f : α → α → α) :
    ∀ (l : List α) (a : α), foldfnValue f (a :: l) = some (chain1 f a l)
  | [], _ => rfl
  | b :: l, a => by
    show (foldfnValue f (b :: l)).map (fun v => f a v) = some (chain1 f a (b :: l))
    rw [foldfnValue_eq_chain f l b]
    rfl

/-! ## Claim C1: foldr combines strictly right to left -/

theorem foldr17_eq_rchain (f0 : α) (f : α → α → α) :
    ∀ l : List α, 1 ≤ l.length → foldr17 f0 f l = rchain f l
  | [x], _ => rfl
  | [x, y], _ => rfl
  | x :: y :: z :: rest, _ => by
    show (foldfnValue f (z :: rest)).map (fun v => f x (f y v)) =
      some (chain1 f x (y :: z :: rest))
    rw [foldfnValue_eq_chain f rest z]
    rfl

theorem foldrImplF_eq_rchain (f : α → α → α) :
    ∀ (fuel : Nat) (l : List α), 2 ≤ l.length → l.length ≤ fuel →
      foldrImplF f fuel l = rchain f l := by
  intro fuel
  induction fuel with
  | zero => intro l h2 hf; omega
  | succ n ih =>
    intro l h2 hf
    match l with
    | [a, b] => rfl
    | [a, b, c] => rfl
    | a :: b :: c :: d :: rest =>
      set L := a :: b :: c :: d :: rest with hL
      have hlen : 4 ≤ L.length := by simp [hL]
      set s := L.length / 2 with hs
      have hs2 : 2 ≤ s := by omega
      have hslt : s + 2 ≤ L.length := by omega
      have hdl : (L.drop s).length = L.length - s := List.length_drop ..
      have htl : (L.take s).length = s := List.length_take_of_le (by omega)
      have hdrop : foldrImplF f n (L.drop s) = rchain f (L.drop s) := by
        apply ih <;> omega
      obtain ⟨y, m, hym⟩ : ∃ y m, L.drop s = y :: m := by
        match hyp : L.drop s with
        | [] => rw [hyp] at hdl; simp at hdl; omega
        | y :: m => exact ⟨y, m, rfl⟩
      obtain ⟨t, ts, hts⟩ : ∃ t ts, L.take s = t :: ts := by
        match hyp : L.take s with
        | [] => rw [hyp] at htl; simp at htl; omega
        | t :: ts => exact ⟨t, ts, rfl⟩
      have step : foldrImplF f (n + 1) L =
          (foldrImplF f n (L.drop s)).bind fun r =>
            foldrImplF f n (L.take s ++ [r]) := rfl
      rw [step, hdrop, hym]
      show foldrImplF f n (L.take s ++ [chain1 f y m]) = rchain f L
      have htake : foldrImplF f n (L.take s ++ [chain1 f y m]) =
          rchain f (L.take s ++ [chain1 f y m]) := by
        apply ih <;> simp only [List.length_append, htl, List.length_cons,
          List.length_nil] <;> omega
      rw [htake, hts]
      have hrec : L = t :: (ts ++ y :: m) := by
        conv_lhs => rw [← List.take_append_drop s L]
        rw [hts, hym, List.cons_append]
      rw [hrec]
      show some (chain1 f t (ts ++ [chain1 f y m])) = some (chain1 f t (ts ++ y :: m))
      exact congrArg some (chain1_append_last f y m ts t).symm

theorem foldr14_eq_rchain (f0 : α) (f : α → α → α) :
    ∀ l : List α, 1 ≤ l.length → foldr14 f0 f l = rchain f l
  | [x], _ => rfl
  | [x, y], _ => rfl
  | x :: y :: z :: rest, _ => by
    have h := foldrImplF_eq_rchain f (y :: z :: rest).length (y :: z :: rest)
      (by simp) (le_refl _)
    show (foldrImplF f (y :: z :: rest).length (y :: z :: rest)).map (fun r => f x r) =
      some (chain1 f x (y :: z :: rest))
    rw [h]
    rfl

/-- Claim C1: for n ≥ 3 operands, both implementations of `foldr` (the
C++17 fold-expression path, fold.hpp lines 312-324, and the pre-C++17
divide-and-conquer path, lines 436-448) produce the strictly
right-to-left nesting `f(x1, f(x2, f(x3, ... f(xn-1, xn))))`, i.e. the
first operand combined with the right-associated chain of the tail. -/
theorem foldr_right_assoc_c1 (f0 : α) (f : α → α → α)
    (x y : α) (rest : List α) (h : 1 ≤ rest.length) :
    foldr17 f0 f (x :: y :: rest) = some (f x (chain1 f y rest)) ∧
      foldr14 f0 f (x :: y :: rest) = some (f x (chain1 f y rest)) := by
  have h17 := foldr17_eq_rchain f0 f (x :: y :: rest) (by simp)
  have h14 := foldr14_eq_rchain f0 f (x :: y :: rest) (by simp)
  rw [h17, h14, rchain, chain1]
  exact ⟨rfl, rfl⟩

/-- Witness for claim C1 at the five operands `leaf 0 .. leaf 4`. -/
theorem foldr_right_assoc_c1_witness :
    1 ≤ ([Tree.leaf 2, Tree.leaf 3, Tree.leaf 4] : List Tree).length ∧
      (foldr17 (Tree.leaf 9) Tree.node
          [Tree.leaf 0, Tree.leaf 1, Tree.leaf 2, Tree.leaf 3, Tree.leaf 4] =
        some (Tree.node (Tree.leaf 0)
          (chain1 Tree.node (Tree.leaf 1) [Tree.leaf 2, Tree.leaf 3, Tree.leaf 4])) ∧
      foldr14 (Tree.leaf 9) Tree.node
          [Tree.leaf 0, Tree.leaf 1, Tree.leaf 2, Tree.leaf 3, Tree.leaf 4] =
        some (Tree.node (Tree.leaf 0)
          (chain1 Tree.node (Tree.leaf 1) [Tree.leaf 2, Tree.leaf 3, Tree.leaf 4]))) :=
  ⟨by decide,
   foldr_right_assoc_c1 (Tree.leaf 9) Tree.node (Tree.leaf 0) (Tree.leaf 1)
     [Tree.leaf 2, Tree.leaf 3, Tree.leaf 4] (by decide)⟩

/-! ## Claim C2: foldl and left association (pre-C++17 path) -/

theorem splitLast_spec (x : α) :
    ∀ l : List α, (splitLast x l).1 ++ [(splitLast x l).2] = x :: l := by
  intro l
  induction l generalizing x with
  | nil => rfl
  | cons y ys ih =>
    show x :: ((splitLast y ys).1 ++ [(splitLast y ys).2]) = x :: y :: ys
    rw [ih y]

theorem foldl17_eq_foldl (f0 : α) (f : α → α → α) :
    ∀ (x : α) (xs : List α), foldl17 f0 f (x :: xs) = some (xs.foldl f x)
  | _, [] => rfl
  | _, [_] => rfl
  | x, y :: z :: rest => by
    show (commaChainL f (splitLast x (y :: z :: rest)).1).map
        (fun v => f v (splitLast x (y :: z :: rest)).2) =
      some ((y :: z :: rest).foldl f x)
    have hsp : (splitLast x (y :: z :: rest)).1 =
        x :: (splitLast y (z :: rest)).1 := rfl
    have hsp2 : (splitLast x (y :: z :: rest)).2 =
        (splitLast y (z :: rest)).2 := rfl
    have hdecomp : y :: z :: rest =
        (splitLast y (z :: rest)).1 ++ [(splitLast y (z :: rest)).2] :=
      (splitLast_spec y (z :: rest)).symm
    rw [hsp, hsp2]
    show some (f ((splitLast y (z :: rest)).1.foldl f x) (splitLast y (z :: rest)).2) =
      some ((y :: z :: rest).foldl f x)
    rw [congrArg some ?_]
    conv_rhs => rw [hdecomp]
    rw [List.foldl_append]
    rfl

theorem foldlImplF_zero_k (f : α → α → α) :
    ∀ (fuel : Nat) (a : α) (l : List α), foldlImplF f fuel 0 a l = none
  | 0, _, _ => rfl
  | fuel + 1, a, l => by
    show (foldlImplF f fuel 0 a []).bind
        (fun b => foldlImplF f fuel (l.length / 2) b l) = none
    rw [foldlImplF_zero_k f fuel a []]
    rfl

theorem foldlImplF_correct (f : α → α → α) :
    ∀ (fuel k : Nat) (a : α) (l : List α), l.length ≤ fuel →
      ((k = 1 ∧ 1 ≤ l.length ∧ l.length ≤ 3) ∨ (2 ≤ k ∧ k + 2 ≤ l.length)) →
      foldlImplF f fuel k a l = some (l.foldl f a) := by
  intro fuel
  induction fuel with
  | zero => intro k a l hf hc; rcases hc with ⟨_, h1, _⟩ | ⟨_, h2⟩ <;> omega
  | succ n ih =>
    intro k a l hf hc
    rcases hc with ⟨hk, h1, h3⟩ | ⟨hk2, hk2l⟩
    · subst hk
      match l, h1, h3 with
      | [b], _, _ => rfl
      | [b, c], _, _ => rfl
      | [b, c, d], _, _ => rfl
    · obtain ⟨k', rfl⟩ : ∃ k', k = k' + 2 := ⟨k - 2, by omega⟩
      have step : foldlImplF f (n + 1) (k' + 2) a l =
          if k' + 2 ≤ l.length then
            (foldlImplF f n ((k' + 2) / 2) a (l.take (k' + 2))).bind fun b =>
              foldlImplF f n ((l.length - (k' + 2)) / 2) b (l.drop (k' + 2))
          else none := rfl
      rw [step, if_pos (by omega : k' + 2 ≤ l.length)]
      have htl : (l.take (k' + 2)).length = k' + 2 := by
        rw [List.length_take]; omega
      have hdl : (l.drop (k' + 2)).length = l.length - (k' + 2) :=
        List.length_drop ..
      have hinner : foldlImplF f n ((k' + 2) / 2) a (l.take (k' + 2)) =
          some ((l.take (k' + 2)).foldl f a) := by
        apply ih
        · omega
        · rw [htl]; omega
      rw [hinner]
      have houter : foldlImplF f n ((l.length - (k' + 2)) / 2)
          ((l.take (k' + 2)).foldl f a) (l.drop (k' + 2)) =
          some ((l.drop (k' + 2)).foldl f ((l.take (k' + 2)).foldl f a)) := by
        apply ih
        · omega
        · rw [hdl]; omega
      show foldlImplF f n ((l.length - (k' + 2)) / 2)
          ((l.take (k' + 2)).foldl f a) (l.drop (k' + 2)) = some (l.foldl f a)
      rw [houter]
      rw [congrArg some ?_]
      conv_rhs => rw [← List.take_append_drop (k' + 2) l]
      rw [List.foldl_append]

theorem foldl14_eq_foldl (f0 : α) (f : α → α → α) (x y z : α) (rest : List α)
    (hr : rest.length ≠ 1) :
    foldl14 f0 f (x :: y :: z :: rest) = some ((y :: z :: rest).foldl f x) := by
  show foldlImplF f (x :: y :: z :: rest).length ((z :: rest).length / 2 + 1)
      x (y :: z :: rest) = some ((y :: z :: rest).foldl f x)
  apply foldlImplF_correct
  · simp
  · simp only [List.length_cons]
    omega

theorem foldl14_stuck_on_four (f0 : α) (f : α → α → α)
    (x1 x2 x3 x4 : α) :
    (∀ fuel a, foldlImplF f fuel 2 a [x2, x3, x4] = none) ∧
      foldl14 f0 f [x1, x2, x3, x4] = none := by
  have hstuck : ∀ fuel (a : α), foldlImplF f fuel 2 a [x2, x3, x4] = none := by
    intro fuel a
    match fuel with
    | 0 => rfl
    | 1 => rfl
    | n + 2 =>
      have e1 : foldlImplF f (n + 2) 2 a [x2, x3, x4] =
          (foldlImplF f (n + 1) 1 a [x2, x3]).bind
            (fun b => foldlImplF f (n + 1) 0 b [x4]) := by
        conv_lhs => rw [foldlImplF.eq_def]
        norm_num
      have e2 : foldlImplF f (n + 1) 1 a [x2, x3] = some (f (f a x2) x3) := rfl
      rw [e1, e2]
      show foldlImplF f (n + 1) 0 (f (f a x2) x3) [x4] = none
      exact foldlImplF_zero_k f (n + 1) _ [x4]
  refine ⟨hstuck, ?_⟩
  have e0 : foldl14 f0 f [x1, x2, x3, x4] = foldlImplF f 4 2 x1 [x2, x3, x4] := by
    show foldlImplF f ([x1, x2, x3, x4] : List α).length
        (([x3, x4] : List α).length / 2 + 1) x1 [x2, x3, x4] =
      foldlImplF f 4 2 x1 [x2, x3, x4]
    norm_num
  rw [e0]
  exact hstuck 4 x1

/-- Claim C2 (code bug): on the pre-C++17 path (fold.hpp lines 452-532),
`foldl` with exactly four operands never produces a value: the top-level
split sends a single trailing operand to `foldl_impl<brigand::list<>>`,
whose instantiation recurses with no progress, so for every
instantiation-depth budget the model yields `none` instead of the
contracted `f(f(f(x1,x2),x3),x4)`. -/
theorem foldl14_four_operands_diverges_c2 (f0 : α) (f : α → α → α)
    (x1 x2 x3 x4 : α) :
    (∀ fuel a, foldlImplF f fuel 2 a [x2, x3, x4] = none) ∧
      foldl14 f0 f [x1, x2, x3, x4] = none :=
  foldl14_stuck_on_four f0 f x1 x2 x3 x4

/-! ## Claim C3: the foldt split -/

theorem cfeLoopF_spec (c : Nat) :
    ∀ (fuel n : Nat), IsPow2 n → 2 ≤ n → n < c → c ≤ n * 2 ^ fuel →
      IsPow2 (cfeLoopF fuel n c) ∧ 2 ≤ cfeLoopF fuel n c ∧
        cfeLoopF fuel n c < c ∧ c ≤ 2 * cfeLoopF fuel n c := by
  intro fuel
  induction fuel with
  | zero =>
    intro n _ _ hlt hle
    simp only [pow_zero, mul_one] at hle
    omega
  | succ m ih =>
    intro n hp h2 hlt hle
    simp only [cfeLoopF]
    by_cases h : n * 2 < c
    · rw [if_pos h]
      apply ih (n * 2)
      · obtain ⟨k, rfl⟩ := hp
        exact ⟨k + 1, by ring⟩
      · omega
      · exact h
      · calc c ≤ n * 2 ^ (m + 1) := hle
          _ = n * 2 * 2 ^ m := by ring
    · rw [if_neg h]
      exact ⟨hp, h2, hlt, by omega⟩

theorem count_foldt_element_spec (c : Nat) (hc : 3 ≤ c) :
    IsPow2 (count_foldt_element c) ∧ 2 ≤ count_foldt_element c ∧
      count_foldt_element c < c ∧ c ≤ 2 * count_foldt_element c := by
  have hfuel : c ≤ 2 * 2 ^ c := by
    have := Nat.lt_two_pow c
    omega
  have h := cfeLoopF_spec c c 2 ⟨1, rfl⟩ (le_refl 2) (by omega) hfuel
  have hmin : count_foldt_element c = cfeLoopF c 2 c := by
    unfold count_foldt_element
    omega
  rw [hmin]
  exact h

theorem count_foldt_element_max (c p : Nat) (hc : 3 ≤ c)
    (hp : IsPow2 p) (hlt : p < c) : p ≤ count_foldt_element c := by
  obtain ⟨hpow, h2, _, hdub⟩ := count_foldt_element_spec c hc
  obtain ⟨j, rfl⟩ := hp
  obtain ⟨k, hk⟩ := hpow
  have hlt2 : 2 ^ j < 2 ^ (k + 1) := by
    calc 2 ^ j < c := hlt
      _ ≤ 2 * count_foldt_element c := hdub
      _ = 2 ^ (k + 1) := by rw [hk]; ring
  have hj : j < k + 1 := by
    by_contra hge
    push_neg at hge
    have hle : (2 : Nat) ^ (k + 1) ≤ 2 ^ j := Nat.pow_le_pow_right (by omega) hge
    omega
  calc 2 ^ j ≤ 2 ^ k := Nat.pow_le_pow_right (by omega) (by omega)
    _ = count_foldt_element c := hk.symm

theorem foldtImplF_stable (f : α → α → α) :
    ∀ (N : Nat) (l : List α), l.length ≤ N →
      ∀ fuel₁ fuel₂, l.length ≤ fuel₁ → l.length ≤ fuel₂ →
        foldtImplF f fuel₁ l = foldtImplF f fuel₂ l := by
  intro N
  induction N with
  | zero =>
    intro l hN fuel₁ fuel₂ h1 h2
    match l with
    | [] => cases fuel₁ <;> cases fuel₂ <;> rfl
  | succ n ih =>
    intro l hN fuel₁ fuel₂ h1 h2
    match l with
    | [] => cases fuel₁ <;> cases fuel₂ <;> rfl
    | [a] =>
      simp only [List.length_cons, List.length_nil] at h1 h2
      obtain ⟨f1, rfl⟩ : ∃ f1, fuel₁ = f1 + 1 := ⟨fuel₁ - 1, by omega⟩
      obtain ⟨f2, rfl⟩ : ∃ f2, fuel₂ = f2 + 1 := ⟨fuel₂ - 1, by omega⟩
      rfl
    | [a, b] =>
      simp only [List.length_cons, List.length_nil] at h1 h2
      obtain ⟨f1, rfl⟩ : ∃ f1, fuel₁ = f1 + 1 := ⟨fuel₁ - 1, by omega⟩
      obtain ⟨f2, rfl⟩ : ∃ f2, fuel₂ = f2 + 1 := ⟨fuel₂ - 1, by omega⟩
      rfl
    | a :: b :: c :: rest =>
      simp only [List.length_cons, List.length_nil] at h1 h2 hN
      obtain ⟨f1, rfl⟩ : ∃ f1, fuel₁ = f1 + 1 := ⟨fuel₁ - 1, by omega⟩
      obtain ⟨f2, rfl⟩ : ∃ f2, fuel₂ = f2 + 1 := ⟨fuel₂ - 1, by omega⟩
      set L := a :: b :: c :: rest with hL
      have h3 : 3 ≤ L.length := by simp [hL]
      have hLlen : L.length = rest.length + 3 := by simp [hL]
      obtain ⟨_, hk2, hklt, _⟩ := count_foldt_element_spec L.length h3
      set k := count_foldt_element L.length with hk
      have hcond : ¬ (count_foldt_element L.length = L.length) := by omega
      have htl : (L.take k).length = k := by rw [List.length_take]; omega
      have hdl : (L.drop k).length = L.length - k := List.length_drop ..
      have step : ∀ fu, foldtImplF f (fu + 1) L =
          if count_foldt_element L.length = L.length then none
          else
            (foldtImplF f fu (L.take (count_foldt_element L.length))).bind fun x =>
              (foldtImplF f fu (L.drop (count_foldt_element L.length))).map
                (fun y => f x y) := fun _ => rfl
      rw [step f1, step f2, if_neg hcond, if_neg hcond]
      have ht := ih (L.take k) (by omega) f1 f2 (by omega) (by omega)
      have hd := ih (L.drop k) (by omega) f1 f2 (by omega) (by omega)
      rw [ht, hd]

theorem foldt_eq_impl (f0 : α) (f : α → α → α) :
    ∀ l : List α, 1 ≤ l.length → foldt f0 f l = foldtImplF f l.length l
  | [x], _ => rfl
  | [x, y], _ => rfl
  | x :: y :: z :: rest, _ => rfl

theorem foldt_split_eq (f0 : α) (f : α → α → α) (l : List α) (h : 3 ≤ l.length) :
    foldt f0 f l =
      (foldt f0 f (l.take (count_foldt_element l.length))).bind fun x =>
        (foldt f0 f (l.drop (count_foldt_element l.length))).map (fun y => f x y) := by
  obtain ⟨_, hk2, hklt, _⟩ := count_foldt_element_spec l.length h
  match l with
  | a :: b :: c :: rest =>
    set L := a :: b :: c :: rest with hL
    have hLlen : L.length = rest.length + 3 := by simp [hL]
    set k := count_foldt_element L.length with hk
    have hcond : ¬ (count_foldt_element L.length = L.length) := by omega
    have htl : (L.take k).length = k := by rw [List.length_take]; omega
    have hdl : (L.drop k).length = L.length - k := List.length_drop ..
    have hwrap : foldt f0 f L = foldtImplF f L.length L := foldt_eq_impl f0 f L (by omega)
    obtain ⟨m, hm⟩ : ∃ m, L.length = m + 3 := ⟨rest.length, hLlen⟩
    have step : foldtImplF f (m + 3) L =
        if count_foldt_element L.length = L.length then none
        else
          (foldtImplF f (m + 2) (L.take (count_foldt_element L.length))).bind fun x =>
            (foldtImplF f (m + 2) (L.drop (count_foldt_element L.length))).map
              (fun y => f x y) := rfl
    rw [hwrap, hm, step, if_neg hcond]
    have ht : foldtImplF f (m + 2) (L.take k) = foldtImplF f (L.take k).length (L.take k) :=
      foldtImplF_stable f (m + 2) (L.take k) (by omega) (m + 2) (L.take k).length
        (by omega) (le_refl _)
    have hd : foldtImplF f (m + 2) (L.drop k) = foldtImplF f (L.drop k).length (L.drop k) :=
      foldtImplF_stable f (m + 2) (L.drop k) (by omega) (m + 2) (L.drop k).length
        (by omega) (le_refl _)
    have hwt : foldt f0 f (L.take k) = foldtImplF f (L.take k).length (L.take k) :=
      foldt_eq_impl f0 f (L.take k) (by omega)
    have hwd : foldt f0 f (L.drop k) = foldtImplF f (L.drop k).length (L.drop k) :=
      foldt_eq_impl f0 f (L.drop k) (by omega)
    rw [ht, hd, hwt, hwd]

/-- Claim C3: for n ≥ 3 operands, `foldt` splits the sequence with a left
sub-count of `count_foldt_element n`, which is the largest power of two
strictly below n (and at least 2, i.e. clamped within the count); singletons
pass through and pairs are combined directly; and concretely
`foldt(f, 1, 2, 3, 4, 5) = f(f(f(1,2), f(3,4)), 5)`. -/
theorem foldt_split_c3 (f0 : α) (f : α → α → α) (l : List α) (h : 3 ≤ l.length) :
    (IsPow2 (count_foldt_element l.length) ∧
      count_foldt_element l.length < l.length ∧
      (∀ p, IsPow2 p → p < l.length → p ≤ count_foldt_element l.length)) ∧
    (foldt f0 f l =
      (foldt f0 f (l.take (count_foldt_element l.length))).bind fun x =>
        (foldt f0 f (l.drop (count_foldt_element l.length))).map (fun y => f x y)) ∧
    (∀ x : α, foldt f0 f [x] = some x) ∧
    (∀ x y : α, foldt f0 f [x, y] = some (f x y)) ∧
    foldt (Tree.leaf 9) Tree.node
        [Tree.leaf 1, Tree.leaf 2, Tree.leaf 3, Tree.leaf 4, Tree.leaf 5] =
      some (Tree.node
        (Tree.node (Tree.node (Tree.leaf 1) (Tree.leaf 2))
          (Tree.node (Tree.leaf 3) (Tree.leaf 4)))
        (Tree.leaf 5)) := by
  obtain ⟨hp, _, hklt, _⟩ := count_foldt_element_spec l.length h
  refine ⟨⟨hp, hklt, fun p hpp hplt => count_foldt_element_max l.length p h hpp hplt⟩,
    foldt_split_eq f0 f l h, fun x => rfl, fun x y => rfl, by decide⟩

/-- Witness for claim C3 at the seven operands `leaf 0 .. leaf 6`. -/
theorem foldt_split_c3_witness :
    3 ≤ ([Tree.leaf 0, Tree.leaf 1, Tree.leaf 2, Tree.leaf 3, Tree.leaf 4,
        Tree.leaf 5, Tree.leaf 6] : List Tree).length ∧
    (IsPow2 (count_foldt_element 7) ∧ count_foldt_element 7 < 7 ∧
      (∀ p, IsPow2 p → p < 7 → p ≤ count_foldt_element 7)) := by
  have h := foldt_split_c3 (Tree.leaf 9) Tree.node
    [Tree.leaf 0, Tree.leaf 1, Tree.leaf 2, Tree.leaf 3, Tree.leaf 4,
      Tree.leaf 5, Tree.leaf 6] (by decide)
  exact ⟨by decide, h.1⟩

/-! ## Claim C4: the foldbl / foldbr splits -/

theorem foldblImplF_stable (f : α → α → α) :
    ∀ (N : Nat) (l : List α), l.length ≤ N →
      ∀ fuel₁ fuel₂, l.length ≤ fuel₁ → l.length ≤ fuel₂ →
        foldblImplF f fuel₁ l = foldblImplF f fuel₂ l := by
  intro N
  induction N with
  | zero =>
    intro l hN fuel₁ fuel₂ h1 h2
    match l with
    | [] => cases fuel₁ <;> cases fuel₂ <;> rfl
  | succ n ih =>
    intro l hN fuel₁ fuel₂ h1 h2
    match l with
    | [] => cases fuel₁ <;> cases fuel₂ <;> rfl
    | [a] =>
      simp only [List.length_cons, List.length_nil] at h1 h2
      obtain ⟨f1, rfl⟩ : ∃ f1, fuel₁ = f1 + 1 := ⟨fuel₁ - 1, by omega⟩
      obtain ⟨f2, rfl⟩ : ∃ f2, fuel₂ = f2 + 1 := ⟨fuel₂ - 1, by omega⟩
      rfl
    | [a, b] =>
      simp only [List.length_cons, List.length_nil] at h1 h2
      obtain ⟨f1, rfl⟩ : ∃ f1, fuel₁ = f1 + 1 := ⟨fuel₁ - 1, by omega⟩
      obtain ⟨f2, rfl⟩ : ∃ f2, fuel₂ = f2 + 1 := ⟨fuel₂ - 1, by omega⟩
      rfl
    | a :: b :: c :: rest =>
      simp only [List.length_cons, List.length_nil] at h1 h2 hN
      obtain ⟨f1, rfl⟩ : ∃ f1, fuel₁ = f1 + 1 := ⟨fuel₁ - 1, by omega⟩
      obtain ⟨f2, rfl⟩ : ∃ f2, fuel₂ = f2 + 1 := ⟨fuel₂ - 1, by omega⟩
      set L := a :: b :: c :: rest with hL
      have hLlen : L.length = rest.length + 3 := by simp [hL]
      set k := (L.length + 1) / 2 with hk
      have htl : (L.take k).length = k := by rw [List.length_take]; omega
      have hdl : (L.drop k).length = L.length - k := List.length_drop ..
      have step : ∀ fu, foldblImplF f (fu + 1) L =
          (foldblImplF f fu (L.take ((L.length + 1) / 2))).bind fun x =>
            (foldblImplF f fu (L.drop ((L.length + 1) / 2))).map
              (fun y => f x y) := fun _ => rfl
      rw [step f1, step f2]
      have ht := ih (L.take k) (by omega) f1 f2 (by omega) (by omega)
      have hd := ih (L.drop k) (by omega) f1 f2 (by omega) (by omega)
      rw [ht, hd]

theorem foldbrImplF_stable (f : α → α → α) :
    ∀ (N : Nat) (l : List α), l.length ≤ N →
      ∀ fuel₁ fuel₂, l.length ≤ fuel₁ → l.length ≤ fuel₂ →
        foldbrImplF f fuel₁ l = foldbrImplF f fuel₂ l := by
  intro N
  induction N with
  | zero =>
    intro l hN fuel₁ fuel₂ h1 h2
    match l with
    | [] => cases fuel₁ <;> cases fuel₂ <;> rfl
  | succ n ih =>
    intro l hN fuel₁ fuel₂ h1 h2
    match l with
    | [] => cases fuel₁ <;> cases fuel₂ <;> rfl
    | [a] =>
      simp only [List.length_cons, List.length_nil] at h1 h2
      obtain ⟨f1, rfl⟩ : ∃ f1, fuel₁ = f1 + 1 := ⟨fuel₁ - 1, by omega⟩
      obtain ⟨f2, rfl⟩ : ∃ f2, fuel₂ = f2 + 1 := ⟨fuel₂ - 1, by omega⟩
      rfl
    | [a, b] =>
      simp only [List.length_cons, List.length_nil] at h1 h2
      obtain ⟨f1, rfl⟩ : ∃ f1, fuel₁ = f1 + 1 := ⟨fuel₁ - 1, by omega⟩
      obtain ⟨f2, rfl⟩ : ∃ f2, fuel₂ = f2 + 1 := ⟨fuel₂ - 1, by omega⟩
      rfl
    | [a, b, c] =>
      simp only [List.length_cons, List.length_nil] at h1 h2
      obtain ⟨f1, rfl⟩ : ∃ f1, fuel₁ = f1 + 1 := ⟨fuel₁ - 1, by omega⟩
      obtain ⟨f2, rfl⟩ : ∃ f2, fuel₂ = f2 + 1 := ⟨fuel₂ - 1, by omega⟩
      rfl
    | a :: b :: c :: d :: rest =>
      simp only [List.length_cons, List.length_nil] at h1 h2 hN
      obtain ⟨f1, rfl⟩ : ∃ f1, fuel₁ = f1 + 1 := ⟨fuel₁ - 1, by omega⟩
      obtain ⟨f2, rfl⟩ : ∃ f2, fuel₂ = f2 + 1 := ⟨fuel₂ - 1, by omega⟩
      set L := a :: b :: c :: d :: rest with hL
      have hLlen : L.length = rest.length + 4 := by simp [hL]
      set k := L.length / 2 with hk
      have htl : (L.take k).length = k := by rw [List.length_take]; omega
      have hdl : (L.drop k).length = L.length - k := List.length_drop ..
      have step : ∀ fu, foldbrImplF f (fu + 1) L =
          (foldbrImplF f fu (L.take (L.length / 2))).bind fun x =>
            (foldbrImplF f fu (L.drop (L.length / 2))).map
              (fun y => f x y) := fun _ => rfl
      rw [step f1, step f2]
      have ht := ih (L.take k) (by omega) f1 f2 (by omega) (by omega)
      have hd := ih (L.drop k) (by omega) f1 f2 (by omega) (by omega)
      rw [ht, hd]

theorem foldbl_eq_impl (f0 : α) (f : α → α → α) :
    ∀ l : List α, 1 ≤ l.length → foldbl f0 f l = foldblImplF f l.length l
  | [x], _ => rfl
  | [x, y], _ => rfl
  | x :: y :: z :: rest, _ => rfl

theorem foldbr_eq_impl (f0 : α) (f : α → α → α) :
    ∀ l : List α, 1 ≤ l.length → foldbr f0 f l = foldbrImplF f l.length l
  | [x], _ => rfl
  | [x, y], _ => rfl
  | x :: y :: z :: rest, _ => rfl

theorem foldbl_split_eq (f0 : α) (f : α → α → α) (l : List α) (h : 3 ≤ l.length) :
    foldbl f0 f l =
      (foldbl f0 f (l.take ((l.length + 1) / 2))).bind fun x =>
        (foldbl f0 f (l.drop ((l.length + 1) / 2))).map (fun y => f x y) := by
  match l with
  | a :: b :: c :: rest =>
    set L := a :: b :: c :: rest with hL
    have hLlen : L.length = rest.length + 3 := by simp [hL]
    set k := (L.length + 1) / 2 with hk
    have htl : (L.take k).length = k := by rw [List.length_take]; omega
    have hdl : (L.drop k).length = L.length - k := List.length_drop ..
    have hwrap : foldbl f0 f L = foldblImplF f L.length L := foldbl_eq_impl f0 f L (by omega)
    obtain ⟨m, hm⟩ : ∃ m, L.length = m + 3 := ⟨rest.length, hLlen⟩
    have step : foldblImplF f (m + 3) L =
        (foldblImplF f (m + 2) (L.take ((L.length + 1) / 2))).bind fun x =>
          (foldblImplF f (m + 2) (L.drop ((L.length + 1) / 2))).map
            (fun y => f x y) := rfl
    rw [hwrap, hm, step]
    have ht : foldblImplF f (m + 2) (L.take k) =
        foldblImplF f (L.take k).length (L.take k) :=
      foldblImplF_stable f (m + 2) (L.take k) (by omega) (m + 2) (L.take k).length
        (by omega) (le_refl _)
    have hd : foldblImplF f (m + 2) (L.drop k) =
        foldblImplF f (L.drop k).length (L.drop k) :=
      foldblImplF_stable f (m + 2) (L.drop k) (by omega) (m + 2) (L.drop k).length
        (by omega) (le_refl _)
    rw [ht, hd, (foldbl_eq_impl f0 f (L.take k) (by omega)).symm,
      (foldbl_eq_impl f0 f (L.drop k) (by omega)).symm]

theorem foldbr_split_eq (f0 : α) (f : α → α → α) (l : List α) (h : 3 ≤ l.length) :
    foldbr f0 f l =
      (foldbr f0 f (l.take (l.length / 2))).bind fun x =>
        (foldbr f0 f (l.drop (l.length / 2))).map (fun y => f x y) := by
  match l with
  | [a, b, c] =>
    have h2 : ([a, b, c] : List α).length / 2 = 1 := by norm_num
    rw [h2]
    rfl
  | a :: b :: c :: d :: rest =>
    set L := a :: b :: c :: d :: rest with hL
    have hLlen : L.length = rest.length + 4 := by simp [hL]
    set k := L.length / 2 with hk
    have htl : (L.take k).length = k := by rw [List.length_take]; omega
    have hdl : (L.drop k).length = L.length - k := List.length_drop ..
    have hwrap : foldbr f0 f L = foldbrImplF f L.length L := foldbr_eq_impl f0 f L (by omega)
    obtain ⟨m, hm⟩ : ∃ m, L.length = m + 4 := ⟨rest.length, hLlen⟩
    have step : foldbrImplF f (m + 4) L =
        (foldbrImplF f (m + 3) (L.take (L.length / 2))).bind fun x =>
          (foldbrImplF f (m + 3) (L.drop (L.length / 2))).map
            (fun y => f x y) := rfl
    rw [hwrap, hm, step]
    have ht : foldbrImplF f (m + 3) (L.take k) =
        foldbrImplF f (L.take k).length (L.take k) :=
      foldbrImplF_stable f (m + 3) (L.take k) (by omega) (m + 3) (L.take k).length
        (by omega) (le_refl _)
    have hd : foldbrImplF f (m + 3) (L.drop k) =
        foldbrImplF f (L.drop k).length (L.drop k) :=
      foldbrImplF_stable f (m + 3) (L.drop k) (by omega) (m + 3) (L.drop k).length
        (by omega) (le_refl _)
    rw [ht, hd, (foldbr_eq_impl f0 f (L.take k) (by omega)).symm,
      (foldbr_eq_impl f0 f (L.drop k) (by omega)).symm]

/-- Claim C4: for n ≥ 3 operands, `foldbl` recursively splits with
`⌈n/2⌉` elements in the left branch and `foldbr` with `⌊n/2⌋` elements in
the left branch (for even n the two coincide), and concretely
`foldbl(f,1..7) = f(f(f(1,2),f(3,4)),f(f(5,6),7))` while
`foldbr(f,1..7) = f(f(1,f(2,3)),f(f(4,5),f(6,7)))`. -/
theorem foldbl_foldbr_split_c4 (f0 : α) (f : α → α → α) (l : List α)
    (h : 3 ≤ l.length) :
    (foldbl f0 f l =
      (foldbl f0 f (l.take ((l.length + 1) / 2))).bind fun x =>
        (foldbl f0 f (l.drop ((l.length + 1) / 2))).map (fun y => f x y)) ∧
    (foldbr f0 f l =
      (foldbr f0 f (l.take (l.length / 2))).bind fun x =>
        (foldbr f0 f (l.drop (l.length / 2))).map (fun y => f x y)) ∧
    (l.length % 2 = 0 → (l.length + 1) / 2 = l.length / 2) ∧
    (foldbl (Tree.leaf 9) Tree.node
        [Tree.leaf 1, Tree.leaf 2, Tree.leaf 3, Tree.leaf 4, Tree.leaf 5,
          Tree.leaf 6, Tree.leaf 7] =
      some (Tree.node
        (Tree.node (Tree.node (Tree.leaf 1) (Tree.leaf 2))
          (Tree.node (Tree.leaf 3) (Tree.leaf 4)))
        (Tree.node (Tree.node (Tree.leaf 5) (Tree.leaf 6)) (Tree.leaf 7)))) ∧
    (foldbr (Tree.leaf 9) Tree.node
        [Tree.leaf 1, Tree.leaf 2, Tree.leaf 3, Tree.leaf 4, Tree.leaf 5,
          Tree.leaf 6, Tree.leaf 7] =
      some (Tree.node
        (Tree.node (Tree.leaf 1) (Tree.node (Tree.leaf 2) (Tree.leaf 3)))
        (Tree.node (Tree.node (Tree.leaf 4) (Tree.leaf 5))
          (Tree.node (Tree.leaf 6) (Tree.leaf 7))))) :=
  ⟨foldbl_split_eq f0 f l h, foldbr_split_eq f0 f l h, fun he => by omega,
    by decide, by decide⟩

/-- Witness for claim C4 at the six operands `leaf 1 .. leaf 6`. -/
theorem foldbl_foldbr_split_c4_witness :
    3 ≤ ([Tree.leaf 1, Tree.leaf 2, Tree.leaf 3, Tree.leaf 4, Tree.leaf 5,
        Tree.leaf 6] : List Tree).length ∧
    (6 % 2 = 0 → (6 + 1) / 2 = 6 / 2) := by
  have h := foldbl_foldbr_split_c4 (Tree.leaf 9) Tree.node
    [Tree.leaf 1, Tree.leaf 2, Tree.leaf 3, Tree.leaf 4, Tree.leaf 5, Tree.leaf 6]
    (by decide)
  exact ⟨by decide, h.2.2.1⟩

/-! ## Claim C5: foldp clusters -/

theorem clusterSizesB_stable (b : Nat) (hb : 1 ≤ b) :
    ∀ (N pow m : Nat), m ≤ N → 1 ≤ pow → 1 ≤ m →
      ∀ fuel₁ fuel₂, m ≤ fuel₁ → m ≤ fuel₂ →
        clusterSizesB b fuel₁ pow m = clusterSizesB b fuel₂ pow m := by
  intro N
  induction N with
  | zero => intro pow m hN hpow hm f1 f2 h1 h2; omega
  | succ n ih =>
    intro pow m hN hpow hm f1 f2 h1 h2
    obtain ⟨g1, rfl⟩ : ∃ g1, f1 = g1 + 1 := ⟨f1 - 1, by omega⟩
    obtain ⟨g2, rfl⟩ : ∃ g2, f2 = g2 + 1 := ⟨f2 - 1, by omega⟩
    show (if m ≤ pow then [m] else pow :: clusterSizesB b g1 (pow * b) (m - pow)) =
      (if m ≤ pow then [m] else pow :: clusterSizesB b g2 (pow * b) (m - pow))
    by_cases hc : m ≤ pow
    · rw [if_pos hc, if_pos hc]
    · rw [if_neg hc, if_neg hc]
      rw [ih (pow * b) (m - pow) (by omega) (Nat.mul_pos (by omega) (by omega)) (by omega)
        g1 g2 (by omega) (by omega)]

theorem clusterSizesB_sum (b : Nat) (hb : 1 ≤ b) :
    ∀ (fuel pow m : Nat), m ≤ fuel → 1 ≤ pow → 1 ≤ m →
      (clusterSizesB b fuel pow m).sum = m := by
  intro fuel
  induction fuel with
  | zero => intro pow m hN hpow hm; omega
  | succ n ih =>
    intro pow m hN hpow hm
    show (if m ≤ pow then [m] else pow :: clusterSizesB b n (pow * b) (m - pow)).sum = m
    by_cases hc : m ≤ pow
    · rw [if_pos hc]; simp
    · rw [if_neg hc]
      rw [List.sum_cons, ih (pow * b) (m - pow) (by omega)
        (Nat.mul_pos (by omega) (by omega)) (by omega)]
      omega

theorem clusterSizesB_ne_nil (b : Nat) (fuel pow m : Nat) (hf : 1 ≤ fuel) :
    clusterSizesB b fuel pow m ≠ [] := by
  obtain ⟨n, rfl⟩ : ∃ n, fuel = n + 1 := ⟨fuel - 1, by omega⟩
  show (if m ≤ pow then [m] else pow :: clusterSizesB b n (pow * b) (m - pow)) ≠ []
  by_cases hc : m ≤ pow
  · rw [if_pos hc]; simp
  · rw [if_neg hc]; simp

theorem chunksBySizes_flatten :
    ∀ (sizes : List Nat) (l : List α), sizes.sum = l.length →
      (chunksBySizes sizes l).flatten = l := by
  intro sizes
  induction sizes with
  | nil =>
    intro l hs
    have : l = [] := List.eq_nil_of_length_eq_zero (by simp at hs; omega)
    rw [this]
    rfl
  | cons s ss ih =>
    intro l hs
    show (l.take s :: chunksBySizes ss (l.drop s)).flatten = l
    rw [List.flatten_cons, ih (l.drop s) (by simp [List.length_drop] at hs ⊢; omega)]
    exact List.take_append_drop s l

theorem foldpImplF_eq (g : List α → α) (f : α → α → α) :
    ∀ (fuel pow : Nat) (l : List α), 1 ≤ pow → 1 ≤ l.length → l.length ≤ fuel →
      foldpImplF g f fuel pow l =
        rchain f ((chunksBySizes (clusterSizes pow l.length) l).map g) := by
  intro fuel
  induction fuel with
  | zero => intro pow l hpow hl hf; omega
  | succ n ih =>
    intro pow l hpow hl hf
    have step : foldpImplF g f (n + 1) pow l =
        if min pow l.length = l.length then some (g l)
        else
          (foldpImplF g f n (pow * 2) (l.drop (min pow l.length))).map
            (fun r => f (g (l.take (min pow l.length))) r) := rfl
    obtain ⟨m', hm'⟩ : ∃ m', l.length = m' + 1 := ⟨l.length - 1, by omega⟩
    have hunfold : clusterSizes pow l.length =
        if l.length ≤ pow then [l.length]
        else pow :: clusterSizesB 2 m' (pow * 2) (l.length - pow) := by
      rw [hm']
      rfl
    by_cases hc : l.length ≤ pow
    · have hk : min pow l.length = l.length := by omega
      rw [step, if_pos hk, hunfold, if_pos hc]
      have heq : chunksBySizes [l.length] l = [l] := by
        show [l.take l.length] = [l]
        rw [List.take_length]
      rw [heq]
      rfl
    · have hk : min pow l.length = pow := by omega
      have hkne : ¬ (min pow l.length = l.length) := by omega
      rw [step, if_neg hkne, hk]
      have hdl : (l.drop pow).length = l.length - pow := List.length_drop ..
      have hrec := ih (pow * 2) (l.drop pow) (by omega) (by omega) (by omega)
      rw [hrec, hdl, hunfold, if_neg hc]
      have hstab : clusterSizes (pow * 2) (l.length - pow) =
          clusterSizesB 2 m' (pow * 2) (l.length - pow) :=
        clusterSizesB_stable 2 (by omega) m' (pow * 2) (l.length - pow)
          (by omega) (by omega) (by omega) (l.length - pow) m' (by omega) (by omega)
      rw [hstab]
      have hne : clusterSizesB 2 m' (pow * 2) (l.length - pow) ≠ [] :=
        clusterSizesB_ne_nil 2 m' (pow * 2) (l.length - pow) (by omega)
      match hcs : clusterSizesB 2 m' (pow * 2) (l.length - pow) with
      | [] => exact absurd hcs hne
      | s :: ss =>
        show (rchain f ((chunksBySizes (s :: ss) (l.drop pow)).map g)).map
            (fun r => f (g (l.take pow)) r) =
          rchain f ((chunksBySizes (pow :: s :: ss) l).map g)
        show (some (chain1 f (g ((l.drop pow).take s))
            ((chunksBySizes ss ((l.drop pow).drop s)).map g))).map
            (fun r => f (g (l.take pow)) r) =
          some (chain1 f (g (l.take pow))
            (g ((l.drop pow).take s) :: (chunksBySizes ss ((l.drop pow).drop s)).map g))
        rfl

/-- Claim C5: for n ≥ 3 operands and any folder strategy `g` (which, being a
fold strategy, maps a one-element cluster to that element), `foldp`
partitions the operand sequence into contiguous clusters sized
`1, min(2, rest), min(4, rest), min(8, rest), ...`, folds each cluster
independently with `g`, and combines the cluster results in a single
right-nested chain `f(c0, f(c1, f(c2, ...)))`; the clusters exactly cover
the operands in order. -/
theorem foldp_clusters_c5 (g : List α → α) (f0 : α) (f : α → α → α)
    (x : α) (l : List α) (h2 : 2 ≤ l.length) (hg : ∀ a, g [a] = a) :
    ((chunksBySizes (1 :: clusterSizes 2 l.length) (x :: l)).flatten = x :: l) ∧
    foldp g f0 f (x :: l) =
      rchain f ((chunksBySizes (1 :: clusterSizes 2 l.length) (x :: l)).map g) := by
  constructor
  · apply chunksBySizes_flatten
    show (1 :: clusterSizes 2 l.length).sum = (x :: l).length
    rw [List.sum_cons]
    simp only [clusterSizes]
    rw [clusterSizesB_sum 2 (by omega) l.length 2 l.length
      (le_refl _) (by omega) (by omega)]
    simp [Nat.add_comm]
  · match l, h2 with
    | y :: z :: rest, _ =>
      set l := y :: z :: rest with hl
      have hwrap : foldp g f0 f (x :: l) =
          (foldpImplF g f l.length 2 l).map (fun r => f x r) := rfl
      have himpl := foldpImplF_eq g f l.length 2 l (by omega) (by simp [hl]) (le_refl _)
      rw [hwrap, himpl]
      have hchunks : chunksBySizes (1 :: clusterSizes 2 l.length) (x :: l) =
          [x] :: chunksBySizes (clusterSizes 2 l.length) l := rfl
      rw [hchunks]
      have hmap : ([x] :: chunksBySizes (clusterSizes 2 l.length) l).map g =
          g [x] :: (chunksBySizes (clusterSizes 2 l.length) l).map g := rfl
      rw [hmap, hg x]
      have hne : clusterSizes 2 l.length ≠ [] :=
        clusterSizesB_ne_nil 2 l.length 2 l.length (by simp [hl])
      match hcs : clusterSizes 2 l.length with
      | [] => exact absurd hcs hne
      | s :: ss =>
        show (some (chain1 f (g (l.take s)) ((chunksBySizes ss (l.drop s)).map g))).map
            (fun r => f x r) =
          some (chain1 f x (g (l.take s) :: (chunksBySizes ss (l.drop s)).map g))
        rfl

/-- Witness for claim C5 at four operands with a single-element-identity
folder. -/
theorem foldp_clusters_c5_witness :
    2 ≤ ([Tree.leaf 2, Tree.leaf 3, Tree.leaf 4] : List Tree).length ∧
      ((chunksBySizes (1 :: clusterSizes 2 3)
          [Tree.leaf 1, Tree.leaf 2, Tree.leaf 3, Tree.leaf 4]).flatten =
        [Tree.leaf 1, Tree.leaf 2, Tree.leaf 3, Tree.leaf 4]) :=
  ⟨by decide,
    (foldp_clusters_c5
      (fun c : List Tree => match c with
        | [t] => t
        | c => chain1 Tree.node (Tree.leaf 0) c)
      (Tree.leaf 9) Tree.node (Tree.leaf 1) [Tree.leaf 2, Tree.leaf 3, Tree.leaf 4]
      (by decide) (fun a => rfl)).1⟩

/-! ## Claim C6: generator and identity base cases -/

/-- Claim C6: every strategy (`foldr` on both paths, `foldl` on both paths,
`foldbl`, `foldbr`, `foldt`, `foldp`) returns the generator value `f()` for
zero operands and the single operand unchanged for one operand; since the
equalities hold for every combining operation `f` and folder `g`, no
combination call can contribute to the one-operand result. -/
theorem empty_and_identity_c6 (g : List α → α) (f0 : α) (f : α → α → α) (a : α) :
    (foldr17 f0 f [] = some f0 ∧ foldr17 f0 f [a] = some a) ∧
    (foldr14 f0 f [] = some f0 ∧ foldr14 f0 f [a] = some a) ∧
    (foldl17 f0 f [] = some f0 ∧ foldl17 f0 f [a] = some a) ∧
    (foldl14 f0 f [] = some f0 ∧ foldl14 f0 f [a] = some a) ∧
    (foldbl f0 f [] = some f0 ∧ foldbl f0 f [a] = some a) ∧
    (foldbr f0 f [] = some f0 ∧ foldbr f0 f [a] = some a) ∧
    (foldt f0 f [] = some f0 ∧ foldt f0 f [a] = some a) ∧
    (foldp g f0 f [] = some f0 ∧ foldp g f0 f [a] = some a) :=
  ⟨⟨rfl, rfl⟩, ⟨rfl, rfl⟩, ⟨rfl, rfl⟩, ⟨rfl, rfl⟩,
    ⟨rfl, rfl⟩, ⟨rfl, rfl⟩, ⟨rfl, rfl⟩, ⟨rfl, rfl⟩⟩

/-! ## Claim C7: where the transient combining operation is moved -/

theorem countMoved_chain1_borrowed (t : CTree) :
    ∀ ts : List CTree,
      countMoved (chain1 (fun a b => CTree.call false a b) t ts) =
        countMoved t + (ts.map countMoved).sum := by
  intro ts
  induction ts generalizing t with
  | nil => simp [chain1]
  | cons u us ih =>
    show countMoved (CTree.call false t
      (chain1 (fun a b => CTree.call false a b) u us)) = _
    simp [countMoved, ih u]

theorem countMoved_foldl_borrowed :
    ∀ (l : List CTree) (t : CTree),
      countMoved (l.foldl (fun a b => CTree.call false a b) t) =
        countMoved t + (l.map countMoved).sum := by
  intro l
  induction l with
  | nil => simp
  | cons u us ih =>
    intro t
    show countMoved (us.foldl (fun a b => CTree.call false a b)
      (CTree.call false t u)) = _
    rw [ih (CTree.call false t u)]
    simp [countMoved]
    omega

theorem countMoved_splitLast (x : CTree) :
    ∀ l : List CTree,
      ((splitLast x l).1.map countMoved).sum + countMoved (splitLast x l).2 =
        countMoved x + (l.map countMoved).sum := by
  intro l
  induction l generalizing x with
  | nil => simp [splitLast]
  | cons y ys ih =>
    show ((x :: (splitLast y ys).1).map countMoved).sum +
        countMoved (splitLast y ys).2 = _
    simp only [List.map_cons, List.sum_cons]
    have := ih y
    omega

theorem countMoved_leaves (xs : List Nat) :
    ((xs.map CTree.leaf).map countMoved).sum = 0 := by
  induction xs with
  | nil => rfl
  | cons a l ih => simpa [countMoved] using ih

theorem foldrA_form (rv : Bool) (x y : CTree) :
    ∀ rest : List CTree,
      foldrA rv (x :: y :: rest) =
        some (CTree.call rv x
          (chain1 (fun a b => CTree.call false a b) y rest))
  | [] => rfl
  | z :: rs => by
    show (foldfnValue (CTree.call false) (z :: rs)).map
        (fun v => CTree.call rv x (CTree.call false y v)) = _
    rw [foldfnValue_eq_chain (CTree.call false) rs z]
    rfl

theorem foldlA_form (rv : Bool) (x y : CTree) :
    ∀ rest : List CTree,
      foldlA rv (x :: y :: rest) =
        some (CTree.call rv
          ((splitLast y rest).1.foldl (fun a b => CTree.call false a b) x)
          (splitLast y rest).2)
  | [] => rfl
  | z :: rs => rfl

/-- Claim C7 (counterexample): for a transient combining operation and
operands 1, 2, 3, the C++17 `foldl` moves the operation into the outermost
call (the one combining `f(1,2)` with `3`), not — as claimed — into the
very first call `f(1,2)`; the tree the claim mandates differs from the one
the code produces. -/
theorem foldl_move_position_c7_counterexample :
    foldlA true [CTree.leaf 1, CTree.leaf 2, CTree.leaf 3] =
      some (CTree.call true
        (CTree.call false (CTree.leaf 1) (CTree.leaf 2)) (CTree.leaf 3)) ∧
    foldlA true [CTree.leaf 1, CTree.leaf 2, CTree.leaf 3] ≠
      some (CTree.call false
        (CTree.call true (CTree.leaf 1) (CTree.leaf 2)) (CTree.leaf 3)) := by
  constructor
  · rfl
  · decide

/-- Claim C7 (amended): with a transient (rvalue) combining operation and
n ≥ 2 leaf operands, `foldr` and `foldl` each exercise the operation by
value in exactly one call and borrow it for every other call; for both the
distinguished call is the final outermost one — for `foldr` it combines the
leftmost operand with the folded remainder, while for `foldl` it combines
the left-folded prefix with the last operand (the last call performed, not
the first). -/
theorem move_position_c7_amended (x y : Nat) (rest : List Nat) :
    (foldrA true (CTree.leaf x :: CTree.leaf y :: rest.map CTree.leaf) =
      some (CTree.call true (CTree.leaf x)
        (chain1 (fun a b => CTree.call false a b) (CTree.leaf y)
          (rest.map CTree.leaf)))) ∧
    (foldlA true (CTree.leaf x :: CTree.leaf y :: rest.map CTree.leaf) =
      some (CTree.call true
        ((splitLast (CTree.leaf y) (rest.map CTree.leaf)).1.foldl
          (fun a b => CTree.call false a b) (CTree.leaf x))
        (splitLast (CTree.leaf y) (rest.map CTree.leaf)).2)) ∧
    countMoved (CTree.call true (CTree.leaf x)
      (chain1 (fun a b => CTree.call false a b) (CTree.leaf y)
        (rest.map CTree.leaf))) = 1 ∧
    countMoved (CTree.call true
      ((splitLast (CTree.leaf y) (rest.map CTree.leaf)).1.foldl
        (fun a b => CTree.call false a b) (CTree.leaf x))
      (splitLast (CTree.leaf y) (rest.map CTree.leaf)).2) = 1 := by
  refine ⟨foldrA_form true (CTree.leaf x) (CTree.leaf y) (rest.map CTree.leaf),
    foldlA_form true (CTree.leaf x) (CTree.leaf y) (rest.map CTree.leaf), ?_, ?_⟩
  · show (1 + countMoved (CTree.leaf x) +
      countMoved (chain1 (fun a b => CTree.call false a b) (CTree.leaf y)
        (rest.map CTree.leaf))) = 1
    rw [countMoved_chain1_borrowed]
    have := countMoved_leaves rest
    show 1 + 0 + (0 + ((rest.map CTree.leaf).map countMoved).sum) = 1
    omega
  · show (1 + countMoved ((splitLast (CTree.leaf y) (rest.map CTree.leaf)).1.foldl
        (fun a b => CTree.call false a b) (CTree.leaf x)) +
      countMoved (splitLast (CTree.leaf y) (rest.map CTree.leaf)).2) = 1
    rw [countMoved_foldl_borrowed]
    have hsp := countMoved_splitLast (CTree.leaf y) (rest.map CTree.leaf)
    have hlv := countMoved_leaves rest
    show 1 + (0 + ((splitLast (CTree.leaf y)
        (rest.map CTree.leaf)).1.map countMoved).sum) +
      countMoved (splitLast (CTree.leaf y) (rest.map CTree.leaf)).2 = 1
    show _ = 1
    have h0 : countMoved (CTree.leaf y) = 0 := rfl
    omega

/-! ## Claim C8: arity-generalized variants reject k < 2 -/

/-- Claim C8 (spec-modelled): the arity-generalized variants `foldr<k>`,
`foldl<k>`, `foldt<k>` and `foldi<k>` — absent from src/falcon/fold.hpp and
modelled from the spec — reject every arity `k < 2` (modelled as `none`,
the compile-time failure demanded by spec sections 4.6 and 7) and accept
every arity `k ≥ 2`, producing a value for every operand list. -/
theorem arity_guard_c8 (F : List α → α) (l : List α) (k : Nat) :
    (k < 2 → foldrK k F l = none ∧ foldlK k F l = none ∧
      foldtK k F l = none ∧ foldiK k F l = none) ∧
    (2 ≤ k → (foldrK k F l).isSome = true ∧ (foldlK k F l).isSome = true ∧
      (foldtK k F l).isSome = true ∧ (foldiK k F l).isSome = true) := by
  constructor
  · intro hk
    exact ⟨if_pos hk, if_pos hk, if_pos hk, if_pos hk⟩
  · intro hk
    have hk' : ¬ (k < 2) := by omega
    refine ⟨?_, ?_, ?_, ?_⟩
    · rcases l with _ | ⟨x, _ | ⟨y, rest⟩⟩ <;>
        (simp [foldrK, hk']; try (split <;> rfl))
    · rcases l with _ | ⟨x, _ | ⟨y, rest⟩⟩ <;>
        (simp [foldlK, hk']; try (split <;> rfl))
    · rcases l with _ | ⟨x, _ | ⟨y, rest⟩⟩ <;>
        (simp [foldtK, hk']; try (split <;> rfl))
    · rcases l with _ | ⟨x, _ | ⟨y, rest⟩⟩ <;>
        (simp [foldiK, hk']; try (split <;> rfl))

/-- Witness for claim C8 at arities 1 (rejected) and 3 (accepted). -/
theorem arity_guard_c8_witness :
    (foldrK 1 (fun c : List Nat => c.sum) [1, 2, 3] = none ∧
      foldlK 1 (fun c : List Nat => c.sum) [1, 2, 3] = none ∧
      foldtK 1 (fun c : List Nat => c.sum) [1, 2, 3] = none ∧
      foldiK 1 (fun c : List Nat => c.sum) [1, 2, 3] = none) ∧
    ((foldrK 3 (fun c : List Nat => c.sum) [1, 2, 3]).isSome = true ∧
      (foldlK 3 (fun c : List Nat => c.sum) [1, 2, 3]).isSome = true ∧
      (foldtK 3 (fun c : List Nat => c.sum) [1, 2, 3]).isSome = true ∧
      (foldiK 3 (fun c : List Nat => c.sum) [1, 2, 3]).isSome = true) :=
  ⟨(arity_guard_c8 (fun c : List Nat => c.sum) [1, 2, 3] 1).1 (by decide),
   (arity_guard_c8 (fun c : List Nat => c.sum) [1, 2, 3] 3).2 (by decide)⟩

/-! ## Claim C9: every strategy factors through its canonical call tree -/

theorem chain1_hom (f' : α → α → α) (h : Tree → α)
    (hom : ∀ a b, h (Tree.node a b) = f' (h a) (h b)) :
    ∀ (ts : List Tree) (t : Tree),
      chain1 f' (h t) (ts.map h) = h (chain1 Tree.node t ts)
  | [], t => rfl
  | u :: us, t => by
    show f' (h t) (chain1 f' (h u) (us.map h)) =
      h (Tree.node t (chain1 Tree.node u us))
    rw [chain1_hom f' h hom us u, hom]

theorem rchain_hom (f' : α → α → α) (h : Tree → α)
    (hom : ∀ a b, h (Tree.node a b) = f' (h a) (h b)) :
    ∀ ts : List Tree, rchain f' (ts.map h) = (rchain Tree.node ts).map h
  | [] => rfl
  | t :: ts => by
    show some (chain1 f' (h t) (ts.map h)) = some (h (chain1 Tree.node t ts))
    rw [chain1_hom f' h hom ts t]

theorem foldl_hom (f' : α → α → α) (h : Tree → α)
    (hom : ∀ a b, h (Tree.node a b) = f' (h a) (h b)) :
    ∀ (ts : List Tree) (t : Tree),
      (ts.map h).foldl f' (h t) = h (ts.foldl Tree.node t)
  | [], t => rfl
  | u :: us, t => by
    show (us.map h).foldl f' (f' (h t) (h u)) = h (us.foldl Tree.node (Tree.node t u))
    rw [← hom, foldl_hom f' h hom us (Tree.node t u)]

theorem chunksBySizes_map (h : Tree → α) :
    ∀ (sizes : List Nat) (l : List Tree),
      chunksBySizes sizes (l.map h) = (chunksBySizes sizes l).map (List.map h)
  | [], _ => rfl
  | s :: ss, l => by
    show (l.map h).take s :: chunksBySizes ss ((l.map h).drop s) =
      (l.take s).map h :: (chunksBySizes ss (l.drop s)).map (List.map h)
    rw [← List.map_take, ← List.map_drop, chunksBySizes_map h ss (l.drop s)]

theorem nat_of_split (f' : α → α → α) (h : Tree → α)
    (hom : ∀ a b, h (Tree.node a b) = f' (h a) (h b))
    (Sa : List α → Option α) (St : List Tree → Option Tree) (K : Nat → Nat)
    (ha1 : ∀ a, Sa [a] = some a) (ht1 : ∀ t, St [t] = some t)
    (ha2 : ∀ a b, Sa [a, b] = some (f' a b))
    (ht2 : ∀ t u, St [t, u] = some (Tree.node t u))
    (hK : ∀ n, 3 ≤ n → 1 ≤ K n ∧ K n < n)
    (hsa : ∀ l : List α, 3 ≤ l.length →
      Sa l = (Sa (l.take (K l.length))).bind fun x =>
        (Sa (l.drop (K l.length))).map (fun y => f' x y))
    (hst : ∀ l : List Tree, 3 ≤ l.length →
      St l = (St (l.take (K l.length))).bind fun x =>
        (St (l.drop (K l.length))).map (fun y => Tree.node x y)) :
    ∀ (N : Nat) (ts : List Tree), ts.length ≤ N → 1 ≤ ts.length →
      Sa (ts.map h) = (St ts).map h := by
  intro N
  induction N with
  | zero => intro ts hN h1; omega
  | succ n ih =>
    intro ts hN h1
    match ts with
    | [t] =>
      rw [ht1]
      exact ha1 (h t)
    | [t, u] =>
      rw [ht2]
      show Sa [h t, h u] = some (h (Tree.node t u))
      rw [ha2, hom]
    | t :: u :: v :: rest =>
      set L := t :: u :: v :: rest with hLdef
      have h3 : 3 ≤ L.length := by simp [hLdef]
      have hLlen : L.length = rest.length + 3 := by simp [hLdef]
      have hlen : (L.map h).length = L.length := List.length_map ..
      obtain ⟨hK1, hK2⟩ := hK L.length h3
      have hmap3 : 3 ≤ (L.map h).length := by omega
      rw [hsa (L.map h) hmap3, hst L h3, hlen]
      rw [← List.map_take, ← List.map_drop]
      have htl : (L.take (K L.length)).length = K L.length := by
        rw [List.length_take]; omega
      have hdl : (L.drop (K L.length)).length = L.length - K L.length :=
        List.length_drop ..
      rw [ih (L.take (K L.length)) (by omega) (by omega)]
      rw [ih (L.drop (K L.length)) (by omega) (by omega)]
      cases St (L.take (K L.length)) <;> cases St (L.drop (K L.length)) <;>
        simp [hom]

/-- Claim C9: each strategy is a pure function of its operands and
combining operation, and its result at any value type is the image, under
any interpretation `h` of combination calls, of the one canonical call tree
the strategy builds over the free call structure `Tree` — so the call tree
alone (a function of the operand list) determines every run's result. -/
theorem deterministic_call_tree_c9 (f0' : α) (f' : α → α → α) (t0 : Tree)
    (h : Tree → α) (hom : ∀ a b, h (Tree.node a b) = f' (h a) (h b))
    (g' : List α → α) (gT : List Tree → Tree)
    (hg : ∀ c : List Tree, g' (c.map h) = h (gT c))
    (ts : List Tree) (hts : 1 ≤ ts.length) :
    foldr17 f0' f' (ts.map h) = (foldr17 t0 Tree.node ts).map h ∧
    foldr14 f0' f' (ts.map h) = (foldr14 t0 Tree.node ts).map h ∧
    foldl17 f0' f' (ts.map h) = (foldl17 t0 Tree.node ts).map h ∧
    foldl14 f0' f' (ts.map h) = (foldl14 t0 Tree.node ts).map h ∧
    foldbl f0' f' (ts.map h) = (foldbl t0 Tree.node ts).map h ∧
    foldbr f0' f' (ts.map h) = (foldbr t0 Tree.node ts).map h ∧
    foldt f0' f' (ts.map h) = (foldt t0 Tree.node ts).map h ∧
    foldp g' f0' f' (ts.map h) = (foldp gT t0 Tree.node ts).map h := by
  have hlen : (ts.map h).length = ts.length := List.length_map ..
  refine ⟨?_, ?_, ?_, ?_, ?_, ?_, ?_, ?_⟩
  · rw [foldr17_eq_rchain f0' f' (ts.map h) (by omega),
      foldr17_eq_rchain t0 Tree.node ts hts]
    exact rchain_hom f' h hom ts
  · rw [foldr14_eq_rchain f0' f' (ts.map h) (by omega),
      foldr14_eq_rchain t0 Tree.node ts hts]
    exact rchain_hom f' h hom ts
  · match ts with
    | t :: ts' =>
      rw [show (t :: ts').map h = h t :: ts'.map h from rfl,
        foldl17_eq_foldl f0' f' (h t) (ts'.map h),
        foldl17_eq_foldl t0 Tree.node t ts']
      rw [foldl_hom f' h hom ts' t]
      rfl
  · match ts with
    | [t] => rfl
    | [t, u] =>
      show some (f' (h t) (h u)) = some (h (Tree.node t u))
      rw [hom]
    | t :: u :: v :: rest =>
      by_cases hr : rest.length = 1
      · match rest, hr with
        | [w], _ =>
          show foldl14 f0' f' [h t, h u, h v, h w] =
            (foldl14 t0 Tree.node [t, u, v, w]).map h
          rw [(foldl14_stuck_on_four f0' f' (h t) (h u) (h v) (h w)).2,
            (foldl14_stuck_on_four t0 Tree.node t u v w).2]
          rfl
      · have hrm : (rest.map h).length ≠ 1 := by
          rw [List.length_map]; exact hr
        rw [show (t :: u :: v :: rest).map h =
            h t :: h u :: h v :: rest.map h from rfl,
          foldl14_eq_foldl f0' f' (h t) (h u) (h v) (rest.map h) hrm,
          foldl14_eq_foldl t0 Tree.node t u v rest hr]
        rw [show (h u :: h v :: rest.map h : List α) =
            (u :: v :: rest).map h from rfl,
          foldl_hom f' h hom (u :: v :: rest) t]
        rfl
  · exact nat_of_split f' h hom (foldbl f0' f') (foldbl t0 Tree.node)
      (fun n => (n + 1) / 2) (fun a => rfl) (fun t => rfl) (fun a b => rfl)
      (fun t u => rfl)
      (fun n hn => by
        show 1 ≤ (n + 1) / 2 ∧ (n + 1) / 2 < n
        omega)
      (fun l hl => foldbl_split_eq f0' f' l hl)
      (fun l hl => foldbl_split_eq t0 Tree.node l hl)
      ts.length ts (le_refl _) hts
  · exact nat_of_split f' h hom (foldbr f0' f') (foldbr t0 Tree.node)
      (fun n => n / 2) (fun a => rfl) (fun t => rfl) (fun a b => rfl)
      (fun t u => rfl)
      (fun n hn => by
        show 1 ≤ n / 2 ∧ n / 2 < n
        omega)
      (fun l hl => foldbr_split_eq f0' f' l hl)
      (fun l hl => foldbr_split_eq t0 Tree.node l hl)
      ts.length ts (le_refl _) hts
  · exact nat_of_split f' h hom (foldt f0' f') (foldt t0 Tree.node)
      count_foldt_element (fun a => rfl) (fun t => rfl) (fun a b => rfl)
      (fun t u => rfl)
      (fun n hn => by
        obtain ⟨_, h2, hlt, _⟩ := count_foldt_element_spec n hn
        omega)
      (fun l hl => foldt_split_eq f0' f' l hl)
      (fun l hl => foldt_split_eq t0 Tree.node l hl)
      ts.length ts (le_refl _) hts
  · match ts with
    | [t] => rfl
    | [t, u] =>
      show some (f' (h t) (h u)) = some (h (Tree.node t u))
      rw [hom]
    | t :: u :: v :: rest =>
      have hwrapa : foldp g' f0' f' ((t :: u :: v :: rest).map h) =
          (foldpImplF g' f' ((u :: v :: rest).map h).length 2
            ((u :: v :: rest).map h)).map (fun r => f' (h t) r) := rfl
      have hwrapt : foldp gT t0 Tree.node (t :: u :: v :: rest) =
          (foldpImplF gT Tree.node (u :: v :: rest).length 2
            (u :: v :: rest)).map (fun r => Tree.node t r) := rfl
      have hlen2 : ((u :: v :: rest).map h).length = (u :: v :: rest).length :=
        List.length_map ..
      rw [hwrapa, hwrapt]
      rw [foldpImplF_eq g' f' ((u :: v :: rest).map h).length 2
        ((u :: v :: rest).map h) (by omega) (by simp) (le_refl _)]
      rw [foldpImplF_eq gT Tree.node (u :: v :: rest).length 2
        (u :: v :: rest) (by omega) (by simp) (le_refl _)]
      rw [hlen2, chunksBySizes_map h]
      rw [List.map_map]
      have hcomp : (g' ∘ List.map h) = (h ∘ gT) := by
        funext c
        exact hg c
      rw [hcomp, ← List.map_map]
      rw [rchain_hom f' h hom]
      cases rchain Tree.node
        ((chunksBySizes (clusterSizes 2 (u :: v :: rest).length)
          (u :: v :: rest)).map gT) <;> simp [hom]

/-- Helper: summing leaves commutes with the right chain of calls. -/
theorem treeSum_chain :
    ∀ c : List Tree, (c.map treeSum).sum = treeSum (chain1 Tree.node (Tree.leaf 0) c) := by
  intro c
  have key : ∀ (us : List Tree) (u : Tree),
      treeSum (chain1 Tree.node u us) = treeSum u + (us.map treeSum).sum := by
    intro us
    induction us with
    | nil => intro u; simp [chain1]
    | cons w ws ih =>
      intro u
      show treeSum (Tree.node u (chain1 Tree.node w ws)) = _
      simp [treeSum, ih w]
      try omega
  match c with
  | [] => rfl
  | u :: us =>
    show ((u :: us).map treeSum).sum = treeSum (Tree.node (Tree.leaf 0) (chain1 Tree.node u us))
    simp [treeSum, key us u]

/-- Witness for claim C9 with the leaf-sum interpretation on three
operands. -/
theorem deterministic_call_tree_c9_witness :
    1 ≤ ([Tree.leaf 1, Tree.leaf 2, Tree.leaf 3] : List Tree).length ∧
    foldt 0 (fun a b : Nat => a + b)
        ([Tree.leaf 1, Tree.leaf 2, Tree.leaf 3].map treeSum) =
      (foldt (Tree.leaf 7) Tree.node
        [Tree.leaf 1, Tree.leaf 2, Tree.leaf 3]).map treeSum :=
  ⟨by decide,
    (deterministic_call_tree_c9 0 (fun a b : Nat => a + b) (Tree.leaf 7)
      treeSum (fun a b => rfl) (fun c : List Nat => c.sum)
      (fun c : List Tree => chain1 Tree.node (Tree.leaf 0) c)
      treeSum_chain [Tree.leaf 1, Tree.leaf 2, Tree.leaf 3]
      (by decide)).2.2.2.2.2.2.1⟩

/-! ## Claim C10: linearity and order preservation of the call trees -/

theorem leaves_chain1 :
    ∀ (ts : List Tree) (t : Tree),
      leavesList (chain1 Tree.node t ts) =
        leavesList t ++ ts.flatMap leavesList
  | [], t => by simp [chain1]
  | u :: us, t => by
    show leavesList (Tree.node t (chain1 Tree.node u us)) = _
    show leavesList t ++ leavesList (chain1 Tree.node u us) = _
    rw [leaves_chain1 us u]
    simp

theorem leaves_foldl :
    ∀ (ts : List Tree) (t : Tree),
      leavesList (ts.foldl Tree.node t) =
        leavesList t ++ ts.flatMap leavesList
  | [], t => by simp
  | u :: us, t => by
    show leavesList (us.foldl Tree.node (Tree.node t u)) = _
    rw [leaves_foldl us (Tree.node t u)]
    show (leavesList t ++ leavesList u) ++ us.flatMap leavesList = _
    simp

theorem rchain_leaves :
    ∀ l : List Tree, 1 ≤ l.length →
      (rchain Tree.node l).map leavesList = some (l.flatMap leavesList)
  | t :: ts, _ => by
    show some (leavesList (chain1 Tree.node t ts)) = some ((t :: ts).flatMap leavesList)
    rw [leaves_chain1 ts t]
    simp

theorem leaves_of_split (S : List Tree → Option Tree) (K : Nat → Nat)
    (h1 : ∀ t, S [t] = some t)
    (h2 : ∀ t u, S [t, u] = some (Tree.node t u))
    (hK : ∀ n, 3 ≤ n → 1 ≤ K n ∧ K n < n)
    (hsplit : ∀ l : List Tree, 3 ≤ l.length →
      S l = (S (l.take (K l.length))).bind fun x =>
        (S (l.drop (K l.length))).map (fun y => Tree.node x y)) :
    ∀ (N : Nat) (l : List Tree), l.length ≤ N → 1 ≤ l.length →
      (S l).map leavesList = some (l.flatMap leavesList) := by
  intro N
  induction N with
  | zero => intro l hN hl; omega
  | succ n ih =>
    intro l hN hl
    match l with
    | [t] =>
      rw [h1]
      simp
    | [t, u] =>
      rw [h2]
      show some (leavesList t ++ leavesList u) = _
      simp
    | t :: u :: v :: rest =>
      set L := t :: u :: v :: rest with hLdef
      have h3 : 3 ≤ L.length := by simp [hLdef]
      have hLlen : L.length = rest.length + 3 := by simp [hLdef]
      obtain ⟨hK1, hK2⟩ := hK L.length h3
      have htl : (L.take (K L.length)).length = K L.length := by
        rw [List.length_take]; omega
      have hdl : (L.drop (K L.length)).length = L.length - K L.length :=
        List.length_drop ..
      have iht := ih (L.take (K L.length)) (by omega) (by omega)
      have ihd := ih (L.drop (K L.length)) (by omega) (by omega)
      obtain ⟨x, hx, hxl⟩ : ∃ x, S (L.take (K L.length)) = some x ∧
          leavesList x = (L.take (K L.length)).flatMap leavesList := by
        cases hS : S (L.take (K L.length)) with
        | none => rw [hS] at iht; exact absurd iht (by simp)
        | some x =>
          rw [hS] at iht
          exact ⟨x, rfl, by simpa using iht⟩
      obtain ⟨y, hy, hyl⟩ : ∃ y, S (L.drop (K L.length)) = some y ∧
          leavesList y = (L.drop (K L.length)).flatMap leavesList := by
        cases hS : S (L.drop (K L.length)) with
        | none => rw [hS] at ihd; exact absurd ihd (by simp)
        | some y =>
          rw [hS] at ihd
          exact ⟨y, rfl, by simpa using ihd⟩
      rw [hsplit L h3, hx, hy]
      show some (leavesList (Tree.node x y)) = some (L.flatMap leavesList)
      show some (leavesList x ++ leavesList y) = some (L.flatMap leavesList)
      rw [hxl, hyl, ← List.flatMap_append, List.take_append_drop]

theorem leaves_of_leaf_list :
    ∀ xs : List Nat, (xs.map Tree.leaf).flatMap leavesList = xs
  | [] => rfl
  | a :: l => by
    show leavesList (Tree.leaf a) ++ (l.map Tree.leaf).flatMap leavesList = a :: l
    rw [leaves_of_leaf_list l]
    rfl

theorem clusterSizesB_all_pos (b : Nat) (hb : 1 ≤ b) :
    ∀ (fuel pow m : Nat), m ≤ fuel → 1 ≤ pow → 1 ≤ m →
      ∀ s ∈ clusterSizesB b fuel pow m, 1 ≤ s := by
  intro fuel
  induction fuel with
  | zero => intro pow m hf hpow hm; omega
  | succ n ih =>
    intro pow m hf hpow hm
    show ∀ s ∈ (if m ≤ pow then [m]
      else pow :: clusterSizesB b n (pow * b) (m - pow)), 1 ≤ s
    by_cases hc : m ≤ pow
    · rw [if_pos hc]
      intro s hs
      simp at hs
      omega
    · rw [if_neg hc]
      intro s hs
      rcases List.mem_cons.mp hs with rfl | hs'
      · omega
      · exact ih (pow * b) (m - pow) (by omega)
          (Nat.mul_pos (by omega) (by omega)) (by omega) s hs'

theorem chunksBySizes_ne_nil :
    ∀ (sizes : List Nat) (l : List α), (∀ s ∈ sizes, 1 ≤ s) →
      sizes.sum = l.length → ∀ c ∈ chunksBySizes sizes l, c ≠ [] := by
  intro sizes
  induction sizes with
  | nil => intro l _ _ c hc; simp [chunksBySizes] at hc
  | cons s ss ih =>
    intro l hpos hsum c hc
    rcases List.mem_cons.mp hc with rfl | hc'
    · have hs : 1 ≤ s := hpos s (by simp)
      have hlen : 1 ≤ l.length := by
        rw [List.sum_cons] at hsum
        omega
      intro hnil
      have hz : (l.take s).length = 0 := by rw [hnil]; rfl
      rw [List.length_take] at hz
      omega
    · exact ih (l.drop s) (fun u hu => hpos u (by simp [hu]))
        (by simp [List.sum_cons, List.length_drop] at hsum ⊢; omega) c hc'

theorem flatten_flatMap_leaves :
    ∀ X : List (List Tree),
      X.flatten.flatMap leavesList = X.flatMap (fun c => c.flatMap leavesList)
  | [] => rfl
  | c :: cs => by
    show (c ++ cs.flatten).flatMap leavesList = _
    rw [List.flatMap_append, flatten_flatMap_leaves cs]
    rfl

theorem flatMap_congr_mem (f g : List Tree → List Nat) :
    ∀ cs : List (List Tree), (∀ c ∈ cs, f c = g c) →
      cs.flatMap f = cs.flatMap g
  | [], _ => rfl
  | c :: cs, h => by
    show f c ++ cs.flatMap f = g c ++ cs.flatMap g
    rw [h c (by simp), flatMap_congr_mem f g cs (fun u hu => h u (by simp [hu]))]

/-- Claim C10: for every strategy, the call tree built over `n ≥ 1` leaf
operands contains each operand exactly once and its in-order leaves are the
operands in their original order (for the pre-C++17 `foldl` this holds at
every count at which it produces a tree at all, i.e. every `n ≠ 4`; for
`foldp` the folder is any leaf-preserving strategy). -/
theorem linear_leaves_c10 (t0 : Tree) (gT : List Tree → Tree)
    (hgl : ∀ c : List Tree, c ≠ [] → leavesList (gT c) = c.flatMap leavesList)
    (xs : List Nat) (hx : 1 ≤ xs.length) :
    ((foldr17 t0 Tree.node (xs.map Tree.leaf)).map leavesList = some xs) ∧
    ((foldr14 t0 Tree.node (xs.map Tree.leaf)).map leavesList = some xs) ∧
    ((foldl17 t0 Tree.node (xs.map Tree.leaf)).map leavesList = some xs) ∧
    (xs.length ≠ 4 →
      (foldl14 t0 Tree.node (xs.map Tree.leaf)).map leavesList = some xs) ∧
    ((foldbl t0 Tree.node (xs.map Tree.leaf)).map leavesList = some xs) ∧
    ((foldbr t0 Tree.node (xs.map Tree.leaf)).map leavesList = some xs) ∧
    ((foldt t0 Tree.node (xs.map Tree.leaf)).map leavesList = some xs) ∧
    ((foldp gT t0 Tree.node (xs.map Tree.leaf)).map leavesList = some xs) := by
  have hlen : (xs.map Tree.leaf).length = xs.length := List.length_map ..
  have hkey : (xs.map Tree.leaf).flatMap leavesList = xs := leaves_of_leaf_list xs
  refine ⟨?_, ?_, ?_, ?_, ?_, ?_, ?_, ?_⟩
  · rw [foldr17_eq_rchain t0 Tree.node (xs.map Tree.leaf) (by omega),
      rchain_leaves (xs.map Tree.leaf) (by omega), hkey]
  · rw [foldr14_eq_rchain t0 Tree.node (xs.map Tree.leaf) (by omega),
      rchain_leaves (xs.map Tree.leaf) (by omega), hkey]
  · match xs with
    | a :: bs =>
      rw [show (a :: bs).map Tree.leaf = Tree.leaf a :: bs.map Tree.leaf from rfl,
        foldl17_eq_foldl t0 Tree.node (Tree.leaf a) (bs.map Tree.leaf)]
      show some (leavesList ((bs.map Tree.leaf).foldl Tree.node (Tree.leaf a))) =
        some (a :: bs)
      rw [leaves_foldl (bs.map Tree.leaf) (Tree.leaf a), leaves_of_leaf_list bs]
      rfl
  · intro h4
    match xs with
    | [a] => rfl
    | [a, b] => rfl
    | a :: b :: c :: rest =>
      have hr : rest.length ≠ 1 := by
        simp only [List.length_cons] at h4
        omega
      have hrm : (rest.map Tree.leaf).length ≠ 1 := by
        rw [List.length_map]; exact hr
      rw [show (a :: b :: c :: rest).map Tree.leaf =
          Tree.leaf a :: Tree.leaf b :: Tree.leaf c :: rest.map Tree.leaf from rfl,
        foldl14_eq_foldl t0 Tree.node (Tree.leaf a) (Tree.leaf b) (Tree.leaf c)
          (rest.map Tree.leaf) hrm]
      show some (leavesList ((Tree.leaf b :: Tree.leaf c :: rest.map Tree.leaf).foldl
        Tree.node (Tree.leaf a))) = some (a :: b :: c :: rest)
      rw [show (Tree.leaf b :: Tree.leaf c :: rest.map Tree.leaf : List Tree) =
          (b :: c :: rest).map Tree.leaf from rfl,
        leaves_foldl ((b :: c :: rest).map Tree.leaf) (Tree.leaf a),
        leaves_of_leaf_list (b :: c :: rest)]
      rfl
  · rw [leaves_of_split (foldbl t0 Tree.node) (fun n => (n + 1) / 2)
      (fun t => rfl) (fun t u => rfl)
      (fun n hn => by
        show 1 ≤ (n + 1) / 2 ∧ (n + 1) / 2 < n
        omega)
      (fun l hl => foldbl_split_eq t0 Tree.node l hl)
      (xs.map Tree.leaf).length (xs.map Tree.leaf) (le_refl _) (by omega), hkey]
  · rw [leaves_of_split (foldbr t0 Tree.node) (fun n => n / 2)
      (fun t => rfl) (fun t u => rfl)
      (fun n hn => by
        show 1 ≤ n / 2 ∧ n / 2 < n
        omega)
      (fun l hl => foldbr_split_eq t0 Tree.node l hl)
      (xs.map Tree.leaf).length (xs.map Tree.leaf) (le_refl _) (by omega), hkey]
  · rw [leaves_of_split (foldt t0 Tree.node) count_foldt_element
      (fun t => rfl) (fun t u => rfl)
      (fun n hn => by
        obtain ⟨_, h2, hlt, _⟩ := count_foldt_element_spec n hn
        omega)
      (fun l hl => foldt_split_eq t0 Tree.node l hl)
      (xs.map Tree.leaf).length (xs.map Tree.leaf) (le_refl _) (by omega), hkey]
  · match xs with
    | [a] => rfl
    | [a, b] => rfl
    | a :: b :: c :: rest =>
      set L' := (b :: c :: rest).map Tree.leaf with hL'
      have hL'len : L'.length = rest.length + 2 := by simp [hL']
      have hwrap : foldp gT t0 Tree.node ((a :: b :: c :: rest).map Tree.leaf) =
          (foldpImplF gT Tree.node L'.length 2 L').map
            (fun r => Tree.node (Tree.leaf a) r) := rfl
      rw [hwrap, foldpImplF_eq gT Tree.node L'.length 2 L' (by omega)
        (by omega) (le_refl _)]
      have hallpos : ∀ s ∈ clusterSizes 2 L'.length, 1 ≤ s :=
        clusterSizesB_all_pos 2 (by omega) L'.length 2 L'.length
          (le_refl _) (by omega) (by omega)
      have hsum : (clusterSizes 2 L'.length).sum = L'.length :=
        clusterSizesB_sum 2 (by omega) L'.length 2 L'.length
          (le_refl _) (by omega) (by omega)
      have hflat : (chunksBySizes (clusterSizes 2 L'.length) L').flatten = L' :=
        chunksBySizes_flatten (clusterSizes 2 L'.length) L' (by rw [hsum])
      have hnonnil : ∀ cl ∈ chunksBySizes (clusterSizes 2 L'.length) L', cl ≠ [] :=
        chunksBySizes_ne_nil (clusterSizes 2 L'.length) L' hallpos (by rw [hsum])
      have hne : clusterSizes 2 L'.length ≠ [] :=
        clusterSizesB_ne_nil 2 L'.length 2 L'.length (by omega)
      set CH := chunksBySizes (clusterSizes 2 L'.length) L' with hCH
      have hCHne : CH ≠ [] := by
        rw [hCH]
        match hsz : clusterSizes 2 L'.length with
        | [] => exact absurd hsz hne
        | s :: ss => simp [chunksBySizes]
      match hch : CH with
      | [] => exact absurd rfl hCHne
      | cl :: cls =>
        show (some (Tree.node (Tree.leaf a)
            (chain1 Tree.node (gT cl) (cls.map gT)))).map leavesList =
          some (a :: b :: c :: rest)
        show some (leavesList (Tree.node (Tree.leaf a)
            (chain1 Tree.node (gT cl) (cls.map gT)))) = some (a :: b :: c :: rest)
        show some ([a] ++ leavesList (chain1 Tree.node (gT cl) (cls.map gT))) =
          some (a :: b :: c :: rest)
        rw [leaves_chain1 (cls.map gT) (gT cl)]
        have hmapflat : (cls.map gT).flatMap leavesList =
            cls.flatMap (fun c' => leavesList (gT c')) := by
          rw [List.flatMap_map]
        have hmem : ∀ c' ∈ cls, leavesList (gT c') = c'.flatMap leavesList :=
          fun c' hc' => hgl c' (hnonnil c' (by simp [hc']))
        have hclnn : cl ≠ [] := hnonnil cl (by simp)
        rw [hmapflat, flatMap_congr_mem (fun c' => leavesList (gT c'))
          (fun c' => c'.flatMap leavesList) cls hmem, hgl cl hclnn]
        have hfin : cl.flatMap leavesList ++
            cls.flatMap (fun c' => c'.flatMap leavesList) =
            (cl :: cls).flatten.flatMap leavesList := by
          rw [flatten_flatMap_leaves (cl :: cls)]
          rfl
        rw [hfin, hflat]
        rw [show (L'.flatMap leavesList : List Nat) = b :: c :: rest from
          leaves_of_leaf_list (b :: c :: rest)]
        rfl

/-- Witness for claim C10 at the three operands 5, 6, 7 with the
right-chain folder. -/
theorem linear_leaves_c10_witness :
    (∀ c : List Tree, c ≠ [] →
      leavesList ((fun c : List Tree => match c with
        | [] => Tree.leaf 0
        | t :: ts => chain1 Tree.node t ts) c) = c.flatMap leavesList) ∧
    1 ≤ ([5, 6, 7] : List Nat).length ∧
    (foldt (Tree.leaf 9) Tree.node ([5, 6, 7].map Tree.leaf)).map leavesList =
      some [5, 6, 7] := by
  have hgl : ∀ c : List Tree, c ≠ [] →
      leavesList ((fun c : List Tree => match c with
        | [] => Tree.leaf 0
        | t :: ts => chain1 Tree.node t ts) c) = c.flatMap leavesList := by
    intro c hc
    match c with
    | t :: ts =>
      show leavesList (chain1 Tree.node t ts) = (t :: ts).flatMap leavesList
      rw [leaves_chain1 ts t]
      rfl
  have h := linear_leaves_c10 (Tree.leaf 9)
    (fun c : List Tree => match c with
      | [] => Tree.leaf 0
      | t :: ts => chain1 Tree.node t ts) hgl [5, 6, 7] (by decide)
  exact ⟨hgl, by decide, h.2.2.2.2.2.2.1⟩

end FalconFold
